import Mathlib

/-!
Verification of the retrieval-and-chunking core of the ExamRC mark-scheme
question-answering system.  The definitions below are a shallow embedding of
the Python sources `src/indexing.py`, `src/retrieval.py` and
`src/answer_formatter.py`: strings are modelled as `String` / `List Char`
(Python `str` indexing is by code point, which matches `List Char` indexing),
floating-point scores are modelled as rationals, and the external
scikit-learn TF-IDF machinery (vectorizer fitting, `linear_kernel`) is kept
abstract: `query_index` receives the similarity row as a function parameter
and `build_vector_index` records the preprocessed corpus that the external
library would be fitted on.
-/

namespace ExamRC

/-- Python whitespace class `\s` (ASCII part): space, tab, newline, carriage
return, vertical tab, form feed. -/
def isWS (c : Char) : Bool :=
  c = ' ' || c = '\t' || c = '\n' || c = '\r' || c = '\x0b' || c = '\x0c'

/-- Python word-character class `\w` (ASCII part): letters, digits, underscore.
Used for the `\b` word-boundary assertions of the normalizer's patterns. -/
def isWord (c : Char) : Bool :=
  c.isAlphanum || c = '_'

/-- Python `str.strip()` on a code-point list: drop leading and trailing
whitespace. -/
def pyStrip (l : List Char) : List Char :=
  ((l.dropWhile isWS).reverse.dropWhile isWS).reverse

/-- Python `str.strip()` on a `String`. -/
def pyStripS (s : String) : String :=
  ⟨pyStrip s.data⟩

/-- Python `str.lower()` (ASCII range): per-code-point lower-casing.  This is
the same character map as Lean's `String.toLower`, but written over the
code-point list so that it evaluates by kernel reduction. -/
def pyLower (s : String) : String :=
  ⟨s.data.map Char.toLower⟩

/-- `needle` occurs at the head of `hay` (needle first argument). -/
def headMatch : List Char → List Char → Bool
  | [], _ => true
  | _ :: _, [] => false
  | c :: cs, d :: ds => c = d && headMatch cs ds

/-- Python substring test `needle in hay` (first argument: haystack). -/
def containsSub : List Char → List Char → Bool
  | [], n => n.isEmpty
  | c :: rest, n => headMatch n (c :: rest) || containsSub rest n

/-- String version of the Python substring test `n in h`. -/
def containsSubS (h n : String) : Bool :=
  containsSub h.data n.data

/-- Stable insertion step for a descending sort by score: `x` goes in front of
the first element it is `≥`, so among equal scores earlier elements stay
first — the behaviour of Python's stable `list.sort(..., reverse=True)`. -/
def insertDesc {α : Type} (x : α × ℚ) : List (α × ℚ) → List (α × ℚ)
  | [] => [x]
  | y :: ys => if y.2 ≤ x.2 then x :: y :: ys else y :: insertDesc x ys

/-- Stable descending sort by score, modelling
`scored.sort(key=lambda x: x[1], reverse=True)`. -/
def sortDesc {α : Type} : List (α × ℚ) → List (α × ℚ)
  | [] => []
  | x :: xs => insertDesc x (sortDesc xs)

/-- A chunk record as produced by `build_index` in `src/indexing.py`
(`{"text": ..., "source": ..., "qid": ...}`; `qid` is `None` or a string). -/
structure Chunk where
  text : String
  source : String
  qid : Option String
deriving DecidableEq

instance : Inhabited Chunk := ⟨⟨"", "", none⟩⟩

/-- `QUERY_NOISE_TERMS` from `src/indexing.py`. -/
def QUERY_NOISE_TERMS : List String := ["purpose", "function", "role"]

/-- `ACRONYM_EXPANSIONS` from `src/indexing.py`. -/
def ACRONYM_EXPANSIONS : List (String × String) :=
  [("alu", "arithmetic logic unit"),
   ("cu", "control unit"),
   ("ram", "random access memory"),
   ("rom", "read only memory"),
   ("cpu", "central processing unit")]

/-- Lookup in the acronym table (Python dict access / `in` test). -/
def acronymLookup (t : String) : Option String :=
  (ACRONYM_EXPANSIONS.find? (fun p => p.1 = t)).map (·.2)

/-- Character class of the token pattern `[A-Za-z0-9\-]+` used by
`_extract_query_terms`. -/
def isTok (c : Char) : Bool :=
  ('A' ≤ c && c ≤ 'Z') || ('a' ≤ c && c ≤ 'z') || ('0' ≤ c && c ≤ '9') || c = '-'

/-- Maximal runs of characters satisfying `p` (the semantics of
`re.findall(r"[A-Za-z0-9\-]+", text)` and of `str.split()`), with an explicit
reversed-accumulator so the recursion is structural. -/
def runsAux (p : Char → Bool) (cur : List Char) : List Char → List (List Char)
  | [] => if cur.isEmpty then [] else [cur.reverse]
  | c :: rest =>
    if p c then runsAux p (c :: cur) rest
    else if cur.isEmpty then runsAux p [] rest
    else cur.reverse :: runsAux p [] rest

/-- Maximal runs of characters satisfying `p`. -/
def runs (p : Char → Bool) (l : List Char) : List (List Char) :=
  runsAux p [] l

/-- Set insertion preserving first-occurrence order (models `set.add`; the
order of a Python set is unspecified, only membership and size matter and
both are preserved by this determinization). -/
def insertIfAbsent (x : String) (l : List String) : List String :=
  if x ∈ l then l else l ++ [x]

/-- `_extract_query_terms` from `src/indexing.py`: tokens of
`[A-Za-z0-9\-]+` over the lower-cased question text, keeping those of length
at least 2 that are not in `QUERY_NOISE_TERMS`, collected as a set. -/
def extract_query_terms (question_text : String) : List String :=
  ((runs isTok (pyLower question_text).data).map (fun r => (⟨r⟩ : String))).foldl
    (fun acc t =>
      if t.length < 2 then acc
      else if t ∈ QUERY_NOISE_TERMS then acc
      else insertIfAbsent t acc) []

/-- `_expand_query` from `src/indexing.py`: append the expansion phrase of
every extracted term found in the acronym table; if none, the query text is
returned unchanged. -/
def expand_query (question_text : String) (terms : List String) : String :=
  let expansions := (terms.filter (fun t => (acronymLookup t).isSome)).map
    (fun t => (acronymLookup t).getD "")
  if expansions.isEmpty then question_text
  else question_text ++ " " ++ String.intercalate " " expansions

/-- The hit test of `_keyword_boost`: a term hits when it occurs in the
lower-cased chunk text, or — for acronym-table terms — when the acronym or
its expansion phrase occurs. -/
def boostHit (chunk_lower : String) (t : String) : Bool :=
  match acronymLookup t with
  | some e => containsSubS chunk_lower t || containsSubS chunk_lower e
  | none => containsSubS chunk_lower t

/-- `_keyword_boost` from `src/indexing.py`: `0.0` on an empty term set, else
`0.2 * (hits / max(1, len(query_terms)))`, with float arithmetic modelled
over `ℚ`. -/
def keyword_boost (query_terms : List String) (chunk_text : String) : ℚ :=
  if query_terms.isEmpty then 0
  else
    let chunk_lower := pyLower chunk_text
    let hits := (query_terms.filter (boostHit chunk_lower)).length
    (0.2 : ℚ) * ((hits : ℚ) / (max 1 query_terms.length : ℕ))

/-! ### The text normalizer `_normalize_text`

`_normalize_text` applies two `re.sub` passes:
`re.sub(r"\breal\s*-\s*time\b", "real-time", text, flags=re.IGNORECASE)`
followed by `re.sub(r"\breal\s+time\b", "real-time", text, flags=re.IGNORECASE)`.
The patterns are deterministic (each `\s*` / `\s+` run is delimited by a
non-whitespace literal, so greediness involves no backtracking), so they are
modelled by direct matchers over `List Char`. `pat1`/`pat2` try the part of
the pattern after the leading `\b` at the head of the list and return the
unconsumed suffix; the scanners `sub1`/`sub2` carry the one bit of state the
`\b` assertions need: whether the previous character was a word character. -/

/-- Case-insensitive literal matcher: strip the pattern `ps` (given in lower
case) from the head of `l`, returning the rest. -/
def stripCI : List Char → List Char → Option (List Char)
  | [], l => some l
  | _ :: _, [] => none
  | p :: ps, c :: cs => if c.toLower = p then stripCI ps cs else none

/-- The trailing `\b` of the normalizer patterns: the next character (if any)
is not a word character.  Both patterns end in `e`, a word character, so the
boundary holds exactly when the rest is empty or starts with a non-word
character. -/
def boundaryOk : List Char → Bool
  | [] => true
  | c :: _ => !isWord c

/-- The replacement text `"real-time"`. -/
def realTimeChars : List Char := ['r', 'e', 'a', 'l', '-', 't', 'i', 'm', 'e']

/-- The common tail `time\b` of both patterns. -/
def patTime (l : List Char) : Option (List Char) :=
  match stripCI ['t', 'i', 'm', 'e'] l with
  | some l3 => if boundaryOk l3 then some l3 else none
  | none => none

/-- The part `\s*-\s*time\b` of the first pattern (after `real`). -/
def pat1Tail (l1 : List Char) : Option (List Char) :=
  match l1.dropWhile isWS with
  | '-' :: l2 => patTime (l2.dropWhile isWS)
  | _ => none

/-- The part `\s+time\b` of the second pattern (after `real`). -/
def pat2Tail (l1 : List Char) : Option (List Char) :=
  match l1 with
  | c :: _ => if isWS c then patTime (l1.dropWhile isWS) else none
  | [] => none

/-- `real\s*-\s*time\b` (the first pattern, after its leading `\b`), tried at
the head of the list; returns the suffix after the match. -/
def pat1 (l : List Char) : Option (List Char) :=
  match stripCI ['r', 'e', 'a', 'l'] l with
  | some l1 => pat1Tail l1
  | none => none

/-- `real\s+time\b` (the second pattern, after its leading `\b`), tried at
the head of the list; returns the suffix after the match. -/
def pat2 (l : List Char) : Option (List Char) :=
  match stripCI ['r', 'e', 'a', 'l'] l with
  | some l1 => pat2Tail l1
  | none => none

theorem length_dropWhile_le (p : Char → Bool) (l : List Char) :
    (l.dropWhile p).length ≤ l.length := by
  conv_rhs => rw [← List.takeWhile_append_dropWhile (p := p) (l := l)]
  rw [List.length_append]
  exact Nat.le_add_left _ _

theorem stripCI_length {ps : List Char} :
    ∀ {l r : List Char}, stripCI ps l = some r → r.length + ps.length = l.length := by
  induction ps with
  | nil => intro l r h; simp [stripCI] at h; simp [h]
  | cons p ps ih =>
    intro l r h
    cases l with
    | nil => simp [stripCI] at h
    | cons c cs =>
      simp only [stripCI] at h
      split at h
      · have := ih h
        simp only [List.length_cons]
        omega
      · exact absurd h (by simp)

theorem patTime_length {l r : List Char} (h : patTime l = some r) :
    r.length + 4 = l.length := by
  unfold patTime at h
  split at h
  · rename_i l3 h3
    split at h
    · cases h; exact stripCI_length h3
    · exact absurd h (by simp)
  · exact absurd h (by simp)

theorem pat1Tail_length {l1 r : List Char} (h : pat1Tail l1 = some r) :
    r.length + 5 ≤ l1.length := by
  unfold pat1Tail at h
  split at h
  · rename_i l2 h2
    have h4 := patTime_length h
    have h5 := length_dropWhile_le isWS l2
    have h6 := length_dropWhile_le isWS l1
    rw [h2] at h6
    simp only [List.length_cons] at h6
    omega
  · exact absurd h (by simp)

theorem pat2Tail_length {l1 r : List Char} (h : pat2Tail l1 = some r) :
    r.length + 4 ≤ l1.length := by
  cases l1 with
  | nil => simp [pat2Tail] at h
  | cons c cs =>
    unfold pat2Tail at h
    split at h
    · split at h
      · have h4 := patTime_length h
        have h5 := length_dropWhile_le isWS (c :: cs)
        simp only [List.length_cons] at h4 h5 ⊢
        omega
      · exact absurd h (by simp)
    · exact absurd h (by simp)

theorem pat1_length {l r : List Char} (h : pat1 l = some r) : r.length < l.length := by
  unfold pat1 at h
  split at h
  · rename_i l1 h1
    have hl1 : l1.length + 4 = l.length := stripCI_length h1
    have := pat1Tail_length h
    omega
  · exact absurd h (by simp)

theorem pat2_length {l r : List Char} (h : pat2 l = some r) : r.length < l.length := by
  unfold pat2 at h
  split at h
  · rename_i l1 h1
    have hl1 : l1.length + 4 = l.length := stripCI_length h1
    have := pat2Tail_length h
    omega
  · exact absurd h (by simp)

/-- The first substitution pass,
`re.sub(r"\breal\s*-\s*time\b", "real-time", text, re.IGNORECASE)`: scan left
to right, `w` records whether the previous character is a word character (so
the leading `\b` holds exactly when `w` is false; the pattern's first
character is always a word character).  On a match, emit the replacement and
resume after the matched text with `w := true` (the match ends in `e`). -/
def sub1 (w : Bool) : List Char → List Char
  | [] => []
  | c :: rest =>
    if w then c :: sub1 (isWord c) rest
    else
      match h : pat1 (c :: rest) with
      | some r => realTimeChars ++ sub1 true r
      | none => c :: sub1 (isWord c) rest
termination_by l => l.length
decreasing_by
  · simp
  · exact pat1_length h
  · simp

/-- The second substitution pass,
`re.sub(r"\breal\s+time\b", "real-time", text, re.IGNORECASE)`. -/
def sub2 (w : Bool) : List Char → List Char
  | [] => []
  | c :: rest =>
    if w then c :: sub2 (isWord c) rest
    else
      match h : pat2 (c :: rest) with
      | some r => realTimeChars ++ sub2 true r
      | none => c :: sub2 (isWord c) rest
termination_by l => l.length
decreasing_by
  · simp
  · exact pat2_length h
  · simp

/-- The scanner state (previous character is a word character) after passing
over the characters of `m`, starting from state `w` — used to reason about
the scanners `sub1`/`sub2` walking over a block of text. -/
def stateAfter (w : Bool) (m : List Char) : Bool :=
  m.foldl (fun _ c => isWord c) w

/-- `_normalize_text` from `src/indexing.py`: the two hyphenation
substitution passes, in source order. -/
def _normalize_text (s : String) : String :=
  ⟨sub2 false (sub1 false s.data)⟩

/-- `build_vector_index` is parametrized by the corpus preprocessor so the
theorems can name the exact normalizer; scikit-learn's `TfidfVectorizer`
fitting is external to this repository and is modelled by recording the
preprocessed corpus it would be fitted on. -/
def build_vector_index_with (normalizer : String → String) (chunks : List Chunk) :
    Except String (List String) :=
  if chunks.isEmpty then .error "No chunks available to build index."
  else .ok (chunks.map (fun c => normalizer c.text))

/-- `build_vector_index` from `src/indexing.py`: raises
`RuntimeError("No chunks available to build index.")` on an empty chunk
list, otherwise fits the vectorizer on `[_normalize_text(c["text"]) for c in
chunks]`. -/
def build_vector_index (chunks : List Chunk) : Except String (List String) :=
  build_vector_index_with _normalize_text chunks

/-! ### The chunker `_split_into_chunks`

`QUESTION_START_RE = (?:^|\n)\s*(\d+)\s*(\([a-z]\))?\s*(\([ivx]+\))?` with
`re.IGNORECASE`.  The pattern is again deterministic: each `\s*` run is
followed by a character class disjoint from whitespace, `\d+` is a maximal
digit run (nothing after it can consume a digit), each optional group starts
with `(` which no neighbouring part can consume, and `[ivx]+` is a maximal
run because it must be followed by `)`.  Without `re.MULTILINE` the `^`
alternative matches only at position 0, so a match at a later position must
begin with a literal newline (which the match consumes, so `m.start()` is
the newline's index).  `re.finditer` scans left to right, yielding
non-overlapping matches and resuming after each match's end. -/

/-- `[ivx]` with `re.IGNORECASE`. -/
def isRoman (c : Char) : Bool :=
  c = 'i' || c = 'v' || c = 'x' || c = 'I' || c = 'V' || c = 'X'

/-- `[a-z]` with `re.IGNORECASE`. -/
def isAsciiLetter (c : Char) : Bool :=
  ('a' ≤ c && c ≤ 'z') || ('A' ≤ c && c ≤ 'Z')

/-- The part of `QUESTION_START_RE` after the `(?:^|\n)` anchor, tried at
`l0`; `a` is the number of characters the anchor consumed (0 for `^`, 1 for
a newline).  On success, returns the total number of characters consumed and
the qid produced by `_format_qid` (the matched groups, as written,
space-joined and stripped). -/
def tryMatchCore (a : Nat) (l0 : List Char) : Option (Nat × String) :=
    let ws1 := (l0.takeWhile isWS).length
    let l1 := l0.dropWhile isWS
    let ds := l1.takeWhile Char.isDigit
    if ds.isEmpty then none
    else
      let l2 := l1.dropWhile Char.isDigit
      let ws2 := (l2.takeWhile isWS).length
      let l3 := l2.dropWhile isWS
      let g2 : Option (List Char × List Char) :=
        match l3 with
        | '(' :: c :: ')' :: r => if isAsciiLetter c then some (['(', c, ')'], r) else none
        | _ => none
      let g2len := match g2 with | some (g, _) => g.length | none => 0
      let l4 := match g2 with | some (_, r) => r | none => l3
      let ws3 := (l4.takeWhile isWS).length
      let l5 := l4.dropWhile isWS
      let g3 : Option (List Char) :=
        match l5 with
        | '(' :: r =>
          let run := r.takeWhile isRoman
          if run.isEmpty then none
          else
            match r.dropWhile isRoman with
            | ')' :: _ => some ('(' :: (run ++ [')']))
            | _ => none
        | _ => none
      let g3len := match g3 with | some g => g.length | none => 0
      let parts := [(⟨ds⟩ : String)]
        ++ (match g2 with | some (g, _) => [(⟨g⟩ : String)] | none => [])
        ++ (match g3 with | some g => [(⟨g⟩ : String)] | none => [])
      some (a + ws1 + ds.length + ws2 + g2len + ws3 + g3len,
            pyStripS (String.intercalate " " parts))

/-- One attempt of `QUESTION_START_RE` at the current position: `l` is the
remaining text and `atStart` whether the position is 0.  The `^` alternative
of the anchor matches only at position 0 (no `re.MULTILINE`); elsewhere the
anchor must consume a literal newline. -/
def tryMatch (l : List Char) (atStart : Bool) : Option (Nat × String) :=
  if atStart then tryMatchCore 0 l
  else
    match l with
    | '\n' :: rest => tryMatchCore 1 rest
    | _ => none

/-- The `re.finditer` scan: try a match at each position, on success emit
`(m.start(), _format_qid(m))` and resume after the match, otherwise advance
one character.  Every match consumes at least one character (it contains a
digit run), so `fuel = length of the text` never runs out; the fuel makes
the recursion structural. -/
def scanAux : Nat → List Char → Nat → Bool → List (Nat × String)
  | 0, _, _, _ => []
  | _ + 1, [], _, _ => []
  | fuel + 1, c :: rest, pos, atStart =>
    match tryMatch (c :: rest) atStart with
    | some (consumed, qid) =>
      (pos, qid) :: scanAux fuel ((c :: rest).drop consumed) (pos + consumed) false
    | none => scanAux fuel rest (pos + 1) false

/-- `list(QUESTION_START_RE.finditer(text))`, reduced to the data the
splitter uses: each match's start offset and formatted qid. -/
def finditer (l : List Char) : List (Nat × String) :=
  scanAux l.length l 0 true

/-- A chunk as produced by `_split_into_chunks` (`{"text": ..., "qid": ...}`). -/
structure RawChunk where
  text : String
  qid : Option String
deriving DecidableEq

/-- The loop body of `_split_into_chunks`: for each match, the slice from its
start to the next match's start (or the end of text), stripped; empty
strips are dropped. -/
def chunksFrom (l : List Char) : List (Nat × String) → List RawChunk
  | [] => []
  | (s, q) :: rest =>
    let e := match rest with | [] => l.length | (s', _) :: _ => s'
    let t := pyStrip ((l.drop s).take (e - s))
    (if t.isEmpty then [] else [⟨⟨t⟩, some q⟩]) ++ chunksFrom l rest

/-- `_split_into_chunks` from `src/indexing.py`. -/
def split_into_chunks (text : String) : List RawChunk :=
  let ms := finditer text.data
  if ms.isEmpty then [⟨pyStripS text, none⟩]
  else chunksFrom text.data ms

/-- The pre-trim slice boundaries `(start, end)` used by the splitter's loop
(line 39–41 of `src/indexing.py`): each match's start paired with the next
match's start, the last with `len(text)`; `[(0, len)]` for the no-match
whole-document chunk. -/
def spanList (len : Nat) : List Nat → List (Nat × Nat)
  | [] => []
  | s :: rest => (s, match rest with | [] => len | s' :: _ => s') :: spanList len rest

/-- The pre-trim chunk spans of a document. -/
def chunkSpans (l : List Char) : List (Nat × Nat) :=
  match finditer l with
  | [] => [(0, l.length)]
  | ms => spanList l.length (ms.map (·.1))

/-! ### `src/retrieval.py` (the no-index fallback scorer) and
`src/answer_formatter.py` -/

/-- `STOPWORDS` from `src/retrieval.py` (includes the question command
words). -/
def RETRIEVAL_STOPWORDS : List String :=
  ["the", "and", "or", "to", "of", "a", "an", "in", "on", "for", "with", "by",
   "is", "are", "was", "were", "be", "been", "being", "that", "this", "these",
   "those", "as", "at", "from", "it", "its", "into", "over", "under",
   "between", "within", "without", "use", "used", "using", "can", "may",
   "will", "would", "should", "could", "do", "does", "did", "done", "what",
   "which", "how", "why", "explain", "describe", "identify", "state", "give",
   "define", "outline", "compare", "contrast"]

/-- `STOPWORDS` from `src/answer_formatter.py` (same list without the
command words). -/
def AF_STOPWORDS : List String :=
  ["the", "and", "or", "to", "of", "a", "an", "in", "on", "for", "with", "by",
   "is", "are", "was", "were", "be", "been", "being", "that", "this", "these",
   "those", "as", "at", "from", "it", "its", "into", "over", "under",
   "between", "within", "without", "use", "used", "using", "can", "may",
   "will", "would", "should", "could", "do", "does", "did", "done", "what",
   "which", "how", "why"]

/-- The character map of `re.sub(r"[^a-z0-9\s]", " ", text)`: keep lower-case
letters, digits and whitespace, replace everything else by a space. -/
def keepOrSpace (c : Char) : Char :=
  if ('a' ≤ c && c ≤ 'z') || ('0' ≤ c && c ≤ '9') || isWS c then c else ' '

/-- The shared `_normalize` tokenizer shape of `src/retrieval.py` and
`src/answer_formatter.py`: lower-case, map non-`[a-z0-9\s]` to space, split
on whitespace, drop empties and the given stopword list. -/
def normalizeTokens (stopwords : List String) (text : String) : List String :=
  ((runs (fun c => !isWS c) ((pyLower text).data.map keepOrSpace)).map
      (fun r => (⟨r⟩ : String))).filter
    (fun t => !(t = "") && !(t ∈ stopwords))

/-- `_normalize` from `src/retrieval.py` (the no-index fallback scorer's
query/chunk tokenizer). -/
def retrieval_normalize (text : String) : List String :=
  normalizeTokens RETRIEVAL_STOPWORDS text

/-- `_normalize` from `src/answer_formatter.py`. -/
def af_normalize (text : String) : List String :=
  normalizeTokens AF_STOPWORDS text

/-- `Counter(tokens).most_common(max_terms)` keys, then the list
comprehension of `_top_keywords`: distinct tokens in first-occurrence order,
stably sorted by descending count, truncated to `max_terms`.  (CPython's
`most_common` sorts the insertion-ordered dict items stably by count.) -/
def top_keywords (text : String) (max_terms : Nat) : List String :=
  let tokens := af_normalize text
  let uniq := tokens.foldl (fun acc t => insertIfAbsent t acc) []
  ((sortDesc (uniq.map (fun t => (t, ((tokens.count t : Nat) : ℚ))))).take
    max_terms).map (·.1)

/-- `_depth_from_command_word` from `src/answer_formatter.py`. -/
def depth_from_command_word (command_word : String) (marks : Option Int) : Int :=
  match marks with
  | some m => max 2 (min 6 m)
  | none =>
    if command_word ∈ ["identify", "state", "give", "define"] then 2
    else if command_word ∈ ["describe", "outline", "compare", "contrast"] then 3
    else if command_word ∈ ["explain", "discuss", "evaluate", "justify"] then 4
    else 3

/-- `re.sub(r"\s+", " ", s)`: collapse every whitespace run to one space
(`prevWS` records whether we are inside a run). -/
def collapseWS (prevWS : Bool) : List Char → List Char
  | [] => []
  | c :: rest =>
    if isWS c then
      (if prevWS then collapseWS true rest else ' ' :: collapseWS true rest)
    else c :: collapseWS false rest

/-- `format_answer` from `src/answer_formatter.py`.  (`question_text` is a
parameter of the source function but unused by its body.) -/
def format_answer (question_text command_word : String) (marks : Option Int)
    (ms_chunks : List String) : String × String :=
  let combined := pyStripS (String.intercalate "\n\n" ms_chunks)
  if combined = "" then
    ("- Insufficient mark-scheme match found. Please refine the question text.",
     "I could not find a close match in the mark scheme.")
  else
    let depth := depth_from_command_word command_word marks
    let keywords := top_keywords combined (depth + 2).toNat
    let exact_answer :=
      String.intercalate "\n" ((keywords.take depth.toNat).map (fun kw => "- " ++ kw))
    let summary : List Char :=
      pyStrip (collapseWS false (combined.data.map (fun c => if c = '\n' then ' ' else c)))
    let short_explanation : String :=
      ⟨summary.take 240⟩ ++ (if 240 < summary.length then "..." else "")
    (exact_answer, short_explanation)

/-- Modelled from the spec (§4.2): the `tokenize_for_matching` contract the
specification states for both the keyword boost and the fallback scorer —
"set of lowercase alphanumeric/hyphen tokens of length ≥ 2, with a fixed
stopword list removed (articles, conjunctions, common verbs, question
command words)".  Stated here only to compare against the two tokenizers
the source actually contains. -/
def tokenize_for_matching_spec (text : String) : List String :=
  ((runs isTok (pyLower text).data).map (fun r => (⟨r⟩ : String))).foldl
    (fun acc t =>
      if t.length < 2 then acc
      else if t ∈ RETRIEVAL_STOPWORDS then acc
      else insertIfAbsent t acc) []

/-- The candidate restriction of `query_index` (lines 114–119 of
`src/indexing.py`): all index positions, unless a truthy (non-empty)
`question_id` is given, in which case only the positions whose qid —
`None` read as `""` — lower-cased equals the stripped, lower-cased filter. -/
def filteredIdx (chunks : List Chunk) (question_id : Option String) : List Nat :=
  let base := List.range chunks.length
  match question_id with
  | none => base
  | some s =>
    if s = "" then base
    else
      let qid_norm := pyLower (pyStripS s)
      base.filter (fun i => pyLower ((chunks.getD i default).qid.getD "") = qid_norm)

/-- `query_index` from `src/indexing.py`.  `kernel` abstracts
`linear_kernel(vectorizer.transform([expanded_query]), matrix).flatten()`:
given the expanded query text it yields the base similarity score of each
chunk row.  Candidate restriction, boost, stable descending sort, `top_k`
truncation and the positive-score filter follow the source line by line. -/
def query_index (kernel : String → Nat → ℚ) (question_text : String)
    (chunks : List Chunk) (top_k : Nat) (question_id : Option String) :
    List Chunk :=
  let filtered_idx := filteredIdx chunks question_id
  if filtered_idx.isEmpty then []
  else
    let query_terms := extract_query_terms question_text
    let expanded_query := expand_query question_text query_terms
    let scored := filtered_idx.map
      (fun i => (i, kernel expanded_query i + keyword_boost query_terms (chunks.getD i default).text))
    let sorted := sortDesc scored
    ((sorted.take top_k).filter (fun p => 0 < p.2)).map (fun p => chunks.getD p.1 default)

/-! ## Theorems -/

theorem mem_insertDesc {α : Type} {y x : α × ℚ} {l : List (α × ℚ)} :
    y ∈ insertDesc x l ↔ y = x ∨ y ∈ l := by
  induction l with
  | nil => simp [insertDesc]
  | cons z zs ih =>
    unfold insertDesc
    split
    · simp only [List.mem_cons]
    · simp only [List.mem_cons, ih]
      tauto

theorem mem_sortDesc {α : Type} {y : α × ℚ} {l : List (α × ℚ)} :
    y ∈ sortDesc l ↔ y ∈ l := by
  induction l with
  | nil => simp [sortDesc]
  | cons x xs ih => simp [sortDesc, mem_insertDesc, ih]

theorem mem_insertIfAbsent {t x : String} {l : List String} :
    t ∈ insertIfAbsent x l ↔ t = x ∨ t ∈ l := by
  unfold insertIfAbsent
  split
  · rename_i hx
    constructor
    · exact Or.inr
    · rintro (rfl | h)
      · exact hx
      · exact h
  · simp only [List.mem_append, List.mem_singleton]
    tauto

theorem mem_termFold (stop : List String) :
    ∀ (ts acc : List String) (t : String),
      t ∈ ts.foldl (fun acc u =>
          if u.length < 2 then acc
          else if u ∈ stop then acc
          else insertIfAbsent u acc) acc
      ↔ t ∈ acc ∨ (t ∈ ts ∧ 2 ≤ t.length ∧ t ∉ stop) := by
  intro ts
  induction ts with
  | nil => simp
  | cons u us ih =>
    intro acc t
    simp only [List.foldl_cons, List.mem_cons]
    by_cases h1 : u.length < 2
    · rw [if_pos h1, ih]
      constructor
      · rintro (h | h)
        · exact Or.inl h
        · exact Or.inr ⟨Or.inr h.1, h.2⟩
      · rintro (h | ⟨(rfl | h), h2, h3⟩)
        · exact Or.inl h
        · omega
        · exact Or.inr ⟨h, h2, h3⟩
    · by_cases h2 : u ∈ stop
      · rw [if_neg h1, if_pos h2, ih]
        constructor
        · rintro (h | h)
          · exact Or.inl h
          · exact Or.inr ⟨Or.inr h.1, h.2⟩
        · rintro (h | ⟨(rfl | h), h3, h4⟩)
          · exact Or.inl h
          · exact absurd h2 h4
          · exact Or.inr ⟨h, h3, h4⟩
      · rw [if_neg h1, if_neg h2, ih]
        constructor
        · rintro (h | h)
          · rcases mem_insertIfAbsent.mp h with rfl | h
            · exact Or.inr ⟨Or.inl rfl, by omega, h2⟩
            · exact Or.inl h
          · exact Or.inr ⟨Or.inr h.1, h.2⟩
        · rintro (h | ⟨(rfl | h), h3, h4⟩)
          · exact Or.inl (mem_insertIfAbsent.mpr (Or.inr h))
          · exact Or.inl (mem_insertIfAbsent.mpr (Or.inl rfl))
          · exact Or.inr ⟨h, h3, h4⟩

/-- C9: `format_answer` on an empty chunk sequence returns the fixed literal
fallback pair — the refine-the-question instruction as exact answer and the
apology sentence as short explanation — for every question text, command
verb and marks value, without error. -/
theorem C9_format_answer_empty_chunks (question_text command_word : String)
    (marks : Option Int) :
    format_answer question_text command_word marks [] =
      ("- Insufficient mark-scheme match found. Please refine the question text.",
       "I could not find a close match in the mark scheme.") := rfl

/-- C6: `build_vector_index` fails with the build error exactly on an empty
chunk collection, and succeeds on every non-empty collection, returning the
fitted state (modelled as the normalized corpus the external vectorizer is
fitted on). -/
theorem C6_build_error_iff_empty (chunks : List Chunk) :
    (build_vector_index chunks = .error "No chunks available to build index."
      ↔ chunks = [])
    ∧ (chunks ≠ [] → ∃ corpus, build_vector_index chunks = .ok corpus) := by
  unfold build_vector_index build_vector_index_with
  constructor
  · cases chunks <;> simp
  · intro h
    refine ⟨chunks.map (fun c => _normalize_text c.text), ?_⟩
    simp [h]

theorem C6_witness :
    (build_vector_index [] = .error "No chunks available to build index.")
    ∧ (∃ corpus, build_vector_index [⟨"cpu", "ms.txt", none⟩] = .ok corpus) :=
  ⟨(C6_build_error_iff_empty []).1.mpr rfl,
   (C6_build_error_iff_empty [⟨"cpu", "ms.txt", none⟩]).2 (by simp)⟩

/-- C7: the keyword boost is 0 on an empty query-term set; otherwise it is
0.2 times the fraction of query terms that hit the chunk (a term hits when
it — or, for acronym-table terms, its expansion — occurs as a substring of
the lower-cased chunk text, the test `boostHit`); the boost always lies in
[0, 0.2]. -/
theorem C7_keyword_boost_bounds (query_terms : List String) (chunk_text : String) :
    (query_terms = [] → keyword_boost query_terms chunk_text = 0)
    ∧ (query_terms ≠ [] →
        keyword_boost query_terms chunk_text =
          0.2 * (((query_terms.filter (boostHit (pyLower chunk_text))).length : ℚ)
            / (query_terms.length : ℚ)))
    ∧ 0 ≤ keyword_boost query_terms chunk_text
    ∧ keyword_boost query_terms chunk_text ≤ 0.2 := by
  have hb : ∀ m : Nat,
      ((query_terms.filter (boostHit (pyLower chunk_text))).length : ℚ) ≤ (m : ℚ) →
      (0 : ℚ) < (m : ℚ) →
      0.2 * (((query_terms.filter (boostHit (pyLower chunk_text))).length : ℚ) / (m : ℚ))
        ≤ 0.2 := by
    intro m h1 h2
    have hdiv : ((query_terms.filter (boostHit (pyLower chunk_text))).length : ℚ) / (m : ℚ) ≤ 1 :=
      (div_le_one h2).mpr h1
    nlinarith
  refine ⟨fun h => by simp [keyword_boost, h], fun h => ?_, ?_, ?_⟩
  · have hne : query_terms.length ≠ 0 := fun h0 => h (List.length_eq_zero.mp h0)
    have hmax : max 1 query_terms.length = query_terms.length :=
      Nat.max_eq_right (Nat.one_le_iff_ne_zero.mpr hne)
    simp only [keyword_boost, List.isEmpty_iff, if_neg h, hmax]
  · unfold keyword_boost
    split
    · norm_num
    · positivity
  · unfold keyword_boost
    split
    · norm_num
    · refine hb (max 1 query_terms.length) ?_ ?_
      · exact_mod_cast le_trans (List.length_filter_le _ _) (Nat.le_max_right _ _)
      · have h1 : (1 : ℕ) ≤ max 1 query_terms.length := Nat.le_max_left _ _
        exact_mod_cast Nat.lt_of_lt_of_le Nat.zero_lt_one h1

theorem C7_witness :
    keyword_boost [] "any chunk" = 0 ∧ keyword_boost ["cpu", "zzz"] "the cpu" ≤ 0.2 :=
  ⟨(C7_keyword_boost_bounds [] "any chunk").1 rfl,
   (C7_keyword_boost_bounds ["cpu", "zzz"] "the cpu").2.2.2⟩

/-- C5: with a non-empty qid filter matching no chunk (no chunk's qid,
lower-cased, equals the stripped lower-cased filter), `query_index` returns
the empty list immediately: the result is `[]` for every similarity kernel
(so no vector score influences it), no error is raised (the function is
total), and there is no fallback to unfiltered search. -/
theorem C5_qid_filter_no_match_returns_empty (kernel : String → Nat → ℚ)
    (question_text : String) (chunks : List Chunk) (top_k : Nat) (filt : String)
    (hne : filt ≠ "")
    (hnomatch : ∀ c ∈ chunks, pyLower (c.qid.getD "") ≠ pyLower (pyStripS filt)) :
    query_index kernel question_text chunks top_k (some filt) = [] := by
  have hfil : filteredIdx chunks (some filt) = [] := by
    unfold filteredIdx
    simp only [if_neg hne]
    refine List.filter_eq_nil_iff.mpr ?_
    intro i hi
    have hlt : i < chunks.length := List.mem_range.mp hi
    have hmem : chunks.getD i default ∈ chunks := by
      rw [List.getD_eq_getElem chunks default hlt]
      exact List.getElem_mem hlt
    simpa using hnomatch _ hmem
  unfold query_index
  simp only [hfil, List.isEmpty_nil, if_pos]

theorem C5_witness :
    query_index (fun _ _ => 0) "state the purpose of ram"
      [⟨"ram text", "ms.txt", some "2 (a)"⟩, ⟨"cpu text", "ms.txt", none⟩] 3
      (some "3 (b)") = [] :=
  C5_qid_filter_no_match_returns_empty _ _ _ _ _ (by decide) (by decide)

/-- C10 counterexample: the claim's parenthetical — "chunks whose qid is
none … never match any non-empty filter" — fails for the non-empty,
whitespace-only filter `" "`: it is truthy, strips to `""`, and the
qid-`None` chunk matches it and is returned by `query_index` (the claim
would force the empty result). -/
theorem C10_counterexample :
    query_index (fun _ _ => 0) "cpu" [⟨"cpu", "s", none⟩] 3 (some " ") =
      [⟨"cpu", "s", none⟩]
    ∧ (" " : String) ≠ "" := by
  have hf : filteredIdx [⟨"cpu", "s", none⟩] (some " ") = [0] := by decide
  have ht : extract_query_terms "cpu" = ["cpu"] := by decide
  have hh : (["cpu"].filter (boostHit (pyLower "cpu"))).length = 1 := by decide
  have hkb : keyword_boost ["cpu"] "cpu" = 0.2 * ((1 : ℚ) / (1 : ℚ)) := by
    norm_num [keyword_boost, hh]
  refine ⟨?_, by decide⟩
  unfold query_index
  rw [hf, ht]
  simp only [List.isEmpty_cons, Bool.false_eq_true, if_false, List.map_cons, List.map_nil,
    List.getD_cons_zero, sortDesc, insertDesc, List.take_cons, List.take_nil, List.filter_cons]
  rw [hkb]
  norm_num

/-- C10 amended: a qid filter equal to the empty string is falsy and behaves
exactly like no filter; and for a filter that is non-empty even after
stripping and lower-casing, every candidate position has a non-`none` qid —
qid-`None` chunks are compared as `""`, so they match exactly the filters
that strip to the empty string (such as `" "`), not the others. -/
theorem C10_empty_filter_amended (kernel : String → Nat → ℚ) (q : String)
    (chunks : List Chunk) (tk : Nat) :
    (query_index kernel q chunks tk (some "") = query_index kernel q chunks tk none)
    ∧ (∀ s : String, s ≠ "" → pyLower (pyStripS s) ≠ "" →
        ∀ i ∈ filteredIdx chunks (some s), (chunks.getD i default).qid ≠ none) := by
  constructor
  · rfl
  · intro s hs hs2 i hi
    simp only [filteredIdx, if_neg hs] at hi
    have hp := (List.mem_filter.mp hi).2
    have hq : pyLower ((chunks.getD i default).qid.getD "") = pyLower (pyStripS s) :=
      of_decide_eq_true hp
    intro hnone
    rw [hnone] at hq
    exact hs2 (hq.symm.trans (by decide))

theorem C10_witness :
    (query_index (fun _ _ => 0) "q" [⟨"x", "s", some "1"⟩] 2 (some "") =
      query_index (fun _ _ => 0) "q" [⟨"x", "s", some "1"⟩] 2 none)
    ∧ (([⟨"x", "s", some "1"⟩] : List Chunk).getD 0 default).qid ≠ none :=
  ⟨(C10_empty_filter_amended (fun _ _ => 0) "q" [⟨"x", "s", some "1"⟩] 2).1,
   (C10_empty_filter_amended (fun _ _ => 0) "q" [⟨"x", "s", some "1"⟩] 2).2 "1"
     (by decide) (by decide) 0 (by decide)⟩

/-- C3 counterexample: the query-term set used for the keyword boost is not
the stopword-filtered token set the claim describes — `_extract_query_terms`
keeps the command word "explain" and the article "the" (it removes only
{"purpose","function","role"}), while the spec's `tokenize_for_matching` and
the fallback scorer's `_normalize` drop them; and the fallback scorer splits
on hyphens and is therefore not the claimed alphanumeric/hyphen tokenizer
either. -/
theorem C3_counterexample :
    extract_query_terms "explain the alu" = ["explain", "the", "alu"]
    ∧ tokenize_for_matching_spec "explain the alu" = ["alu"]
    ∧ retrieval_normalize "explain the alu" = ["alu"]
    ∧ extract_query_terms "real-time" = ["real-time"]
    ∧ retrieval_normalize "real-time" = ["real", "time"] := by decide

/-- C3 amended: the keyword-boost term set is exactly the lower-cased
alphanumeric/hyphen tokens of length ≥ 2 with only the noise set
{"purpose","function","role"} removed (stopwords and command words are
kept); separately, the no-index fallback scorer's tokens never contain a
word of its own stopword list (which does include the command words), and
never an empty token. -/
theorem C3_amended (s t : String) :
    (t ∈ extract_query_terms s ↔
      ((∃ r ∈ runs isTok (pyLower s).data, (⟨r⟩ : String) = t)
        ∧ 2 ≤ t.length ∧ t ∉ QUERY_NOISE_TERMS))
    ∧ (t ∈ retrieval_normalize s → t ∉ RETRIEVAL_STOPWORDS ∧ t ≠ "") := by
  constructor
  · unfold extract_query_terms
    rw [mem_termFold QUERY_NOISE_TERMS]
    simp only [List.mem_map, List.not_mem_nil, false_or]
  · intro ht
    have hp := (List.mem_filter.mp ht).2
    simp only [Bool.and_eq_true, Bool.not_eq_true', decide_eq_false_iff_not] at hp
    exact ⟨hp.2, hp.1⟩

theorem C3_witness : ("alu" : String) ∉ RETRIEVAL_STOPWORDS ∧ ("alu" : String) ≠ "" :=
  (C3_amended "explain the alu" "alu").2 (by decide)

/-! ### Chunker lemmas (C1, C2, C4) -/

theorem dropWhile_idem (p : Char → Bool) (l : List Char) :
    (l.dropWhile p).dropWhile p = l.dropWhile p := by
  induction l with
  | nil => rfl
  | cons c t ih => by_cases h : p c <;> simp [List.dropWhile_cons, h, ih]

theorem head_dropWhile_not {p : Char → Bool} :
    ∀ {l t : List Char} {x : Char}, l.dropWhile p = x :: t → p x = false := by
  intro l
  induction l with
  | nil => intro t x h; simp [List.dropWhile] at h
  | cons a as ih =>
    intro t x h
    by_cases hp : p a = true
    · rw [List.dropWhile_cons, if_pos hp] at h
      exact ih h
    · rw [List.dropWhile_cons, if_neg hp] at h
      cases h
      simpa using hp

theorem revDrop_decomp (p : Char → Bool) (y : List Char) :
    (y.reverse.dropWhile p).reverse ++ (y.reverse.takeWhile p).reverse = y := by
  rw [← List.reverse_append, List.takeWhile_append_dropWhile, List.reverse_reverse]

/-- `str.strip()` is idempotent. -/
theorem pyStrip_idem (l : List Char) : pyStrip (pyStrip l) = pyStrip l := by
  unfold pyStrip
  set y := l.dropWhile isWS with hy
  set z := (y.reverse.dropWhile isWS).reverse with hz
  have hAz : z.dropWhile isWS = z := by
    obtain ⟨u, hu⟩ : ∃ u, z ++ u = y := ⟨(y.reverse.takeWhile isWS).reverse, revDrop_decomp isWS y⟩
    cases hcz : z with
    | nil => rfl
    | cons c t =>
      have hcy : y.dropWhile isWS = y := by rw [hy, dropWhile_idem]
      have hyc : y = c :: (t ++ u) := by rw [← hu, hcz]; simp
      have hc : isWS c = false := by
        refine head_dropWhile_not (l := l) (t := t ++ u) ?_
        rw [← hy]
        exact hyc
      rw [List.dropWhile_cons, if_neg (by simp [hc])]
  have hrz : z.reverse.dropWhile isWS = z.reverse := by
    rw [hz, List.reverse_reverse, dropWhile_idem]
  rw [hAz, hrz, List.reverse_reverse]

theorem chunksFrom_mem {l : List Char} :
    ∀ {ms : List (Nat × String)} {c : RawChunk}, c ∈ chunksFrom l ms →
      c.text.data ≠ [] ∧ pyStrip c.text.data = c.text.data ∧ ∃ q, c.qid = some q := by
  intro ms
  induction ms with
  | nil => intro c h; simp [chunksFrom] at h
  | cons m rest ih =>
    intro c h
    obtain ⟨s, q⟩ := m
    unfold chunksFrom at h
    rcases List.mem_append.mp h with h1 | h2
    · split at h1
      · simp at h1
      · rename_i hne
        have hc := List.mem_singleton.mp h1
        subst hc
        refine ⟨by simpa [List.isEmpty_iff] using hne, pyStrip_idem _, q, rfl⟩
    · exact ih h2

theorem tryMatchCore_consumed {a : Nat} {l0 : List Char} {c : Nat} {q : String}
    (h : tryMatchCore a l0 = some (c, q)) : a + 1 ≤ c := by
  simp only [tryMatchCore] at h
  split at h
  · exact absurd h (by simp)
  · rename_i hne
    have hds : 1 ≤ ((l0.dropWhile isWS).takeWhile Char.isDigit).length := by
      rcases hl : (l0.dropWhile isWS).takeWhile Char.isDigit with _ | ⟨d, ds⟩
      · rw [hl] at hne
        simp at hne
      · simp [hl]
    simp only [Option.some.injEq, Prod.mk.injEq] at h
    omega

theorem tryMatch_consumed_pos {l : List Char} {st : Bool} {c : Nat} {q : String}
    (h : tryMatch l st = some (c, q)) : 1 ≤ c := by
  unfold tryMatch at h
  split at h
  · have := tryMatchCore_consumed h
    omega
  · split at h
    · have := tryMatchCore_consumed h
      omega
    · exact absurd h (by simp)

theorem scanAux_pos_le :
    ∀ (fuel : Nat) (l : List Char) (pos : Nat) (st : Bool) (q : Nat × String),
      q ∈ scanAux fuel l pos st → pos ≤ q.1 := by
  intro fuel
  induction fuel with
  | zero => intro l pos st q h; simp [scanAux] at h
  | succ f ih =>
    intro l pos st q h
    cases l with
    | nil => simp [scanAux] at h
    | cons c rest =>
      unfold scanAux at h
      split at h
      · rename_i consumed qid heq
        rcases List.mem_cons.mp h with rfl | h2
        · exact le_refl _
        · have := ih _ _ _ _ h2
          omega
      · have := ih _ _ _ _ h
        omega

theorem scanAux_pairwise :
    ∀ (fuel : Nat) (l : List Char) (pos : Nat) (st : Bool),
      (scanAux fuel l pos st).Pairwise (fun a b => a.1 < b.1) := by
  intro fuel
  induction fuel with
  | zero => intro l pos st; simp [scanAux]
  | succ f ih =>
    intro l pos st
    cases l with
    | nil => simp [scanAux]
    | cons c rest =>
      unfold scanAux
      split
      · rename_i consumed qid heq
        refine List.Pairwise.cons ?_ (ih _ _ _)
        intro q hq
        have h1 := scanAux_pos_le _ _ _ _ _ hq
        have h2 := tryMatch_consumed_pos heq
        simp only
        omega
      · exact ih _ _ _

theorem spanList_map_fst (len : Nat) :
    ∀ ss : List Nat, (spanList len ss).map Prod.fst = ss := by
  intro ss
  induction ss with
  | nil => rfl
  | cons s rest ih => simp [spanList, ih]

theorem spanList_chain (len : Nat) :
    ∀ ss : List Nat, (spanList len ss).Chain' (fun a b => a.2 = b.1) := by
  intro ss
  induction ss with
  | nil => simp [spanList]
  | cons s rest ih =>
    cases rest with
    | nil => simp [spanList]
    | cons s' r =>
      have : spanList len (s :: s' :: r) =
          (s, s') :: spanList len (s' :: r) := by simp [spanList]
      rw [this]
      refine List.chain'_cons'.mpr ⟨?_, ih⟩
      intro y hy
      simp [spanList] at hy
      rw [← hy]

theorem spanList_getLast_snd (len : Nat) :
    ∀ (ss : List Nat) (s : Nat),
      ((spanList len (s :: ss)).getLast?).map Prod.snd = some len := by
  intro ss
  induction ss with
  | nil => intro s; simp [spanList]
  | cons s' r ih =>
    intro s
    have h1 : spanList len (s :: s' :: r) =
        (s, s') :: spanList len (s' :: r) := by simp [spanList]
    obtain ⟨e, h2⟩ : ∃ e, spanList len (s' :: r) = (s', e) :: spanList len r :=
      ⟨_, rfl⟩
    rw [h1, h2, List.getLast?_cons_cons, ← h2]
    exact ih s'

theorem spanList_head_fst (len s : Nat) (ss : List Nat) :
    ((spanList len (s :: ss)).head?).map Prod.fst = some s := by
  cases ss <;> simp [spanList]

theorem chunksFrom_eq_filterMap (l : List Char) :
    ∀ ms : List (Nat × String),
      chunksFrom l ms =
        ((spanList l.length (ms.map Prod.fst)).zip (ms.map Prod.snd)).filterMap
          (fun se =>
            let t := pyStrip ((l.drop se.1.1).take (se.1.2 - se.1.1))
            if t.isEmpty then none else some ⟨⟨t⟩, some se.2⟩) := by
  intro ms
  induction ms with
  | nil => rfl
  | cons m rest ih =>
    obtain ⟨s, q⟩ := m
    unfold chunksFrom
    rw [ih]
    cases rest with
    | nil =>
      by_cases hemp : pyStrip ((l.drop s).take (l.length - s)) = []
      · simp [spanList, List.filterMap_cons, hemp]
      · simp [spanList, List.filterMap_cons, hemp]
    | cons m2 rest2 =>
      obtain ⟨s2, q2⟩ := m2
      by_cases hemp : pyStrip ((l.drop s).take (s2 - s)) = []
      · simp [spanList, List.filterMap_cons, hemp]
      · simp [spanList, List.filterMap_cons, hemp]

/-- C2 (code behaviour at the failing input): the question-start pattern
begins with `(?:^|\n)` and `re.MULTILINE` is not set, so an occurrence of
"1 (a)" in the middle of running text with no preceding newline does not
match and does not split the document — the same text with a newline before
the identifier does split.  This contradicts both the claim and the code's
own comment ("Split by question id patterns anywhere in text to avoid
line-start dependency"). -/
theorem C2_code_behavior_at_failing_input :
    split_into_chunks "marks 1 (a) define" = [⟨"marks 1 (a) define", none⟩]
    ∧ split_into_chunks "marks\n1 (a) define" = [⟨"1 (a) define", some "1 (a)"⟩] := by
  decide

/-- C4 counterexample: for a whitespace-only document the no-boundary branch
returns one chunk whose text is the stripped document — the empty string —
so a chunk that is empty after trimming is returned. -/
theorem C4_counterexample : split_into_chunks " " = [⟨"", none⟩] := by decide

/-- C4 amended: in the no-boundary branch the single returned chunk's text
is the stripped document (empty exactly when the document is empty or
whitespace-only); when at least one boundary matches, every returned chunk
has non-empty text, already in stripped form (so still non-empty after
trimming). -/
theorem C4_amended (text : String) :
    (finditer text.data = [] → split_into_chunks text = [⟨pyStripS text, none⟩])
    ∧ (finditer text.data ≠ [] →
        ∀ c ∈ split_into_chunks text, c.text ≠ "" ∧ pyStripS c.text = c.text) := by
  constructor
  · intro h
    unfold split_into_chunks
    rw [h]
    rfl
  · intro h c hc
    unfold split_into_chunks at hc
    rw [if_neg (by simpa [List.isEmpty_iff] using h)] at hc
    obtain ⟨hne, hstrip, _⟩ := chunksFrom_mem hc
    refine ⟨?_, ?_⟩
    · intro h0
      apply hne
      rw [h0]
    · unfold pyStripS
      cases c with
      | mk t q => simpa using congrArg String.mk hstrip

theorem C4_witness :
    (split_into_chunks "no question markers here" =
      [⟨pyStripS "no question markers here", none⟩])
    ∧ ((⟨"1 a", some "1"⟩ : RawChunk).text ≠ ""
        ∧ pyStripS (⟨"1 a", some "1"⟩ : RawChunk).text = (⟨"1 a", some "1"⟩ : RawChunk).text) :=
  ⟨(C4_amended "no question markers here").1 (by decide),
   (C4_amended "1 a\n2 b").2 (by decide) ⟨"1 a", some "1"⟩ (by decide)⟩

/-- C1 counterexample: for `"pre\n1 a"` the only match starts at offset 3,
so the single pre-trim chunk slice is `[3, 7)`: the first chunk does not
start at offset 0 and the text before the first boundary match (`"pre"`) is
not covered by any chunk. -/
theorem C1_counterexample :
    chunkSpans "pre\n1 a".data = [(3, 7)]
    ∧ split_into_chunks "pre\n1 a" = [⟨"1 a", some "1"⟩]
    ∧ (3 : Nat) ≠ 0 := by decide

/-- C1 amended: the pre-trim chunk slices are contiguous (`end = next
start`), strictly increasing (hence non-overlapping), and the last ends at
the end of the text; with no boundary match the single slice is the whole
document `[0, len)`; with matches, the first slice starts at the first
match's start (which need not be 0 — text before it is not covered), and the
produced chunks are exactly the stripped non-empty slices paired with their
qids. -/
theorem C1_amended (text : String) :
    (chunkSpans text.data).Chain' (fun a b => a.2 = b.1)
    ∧ (chunkSpans text.data).Pairwise (fun a b => a.1 < b.1)
    ∧ ((chunkSpans text.data).getLast?).map Prod.snd = some text.data.length
    ∧ (finditer text.data = [] → chunkSpans text.data = [(0, text.data.length)])
    ∧ (∀ m ms, finditer text.data = m :: ms →
        ((chunkSpans text.data).head?).map Prod.fst = some m.1)
    ∧ (finditer text.data ≠ [] →
        split_into_chunks text =
          ((chunkSpans text.data).zip ((finditer text.data).map Prod.snd)).filterMap
            (fun se =>
              let t := pyStrip ((text.data.drop se.1.1).take (se.1.2 - se.1.1))
              if t.isEmpty then none else some ⟨⟨t⟩, some se.2⟩)) := by
  have hpw : (finditer text.data).Pairwise (fun a b => a.1 < b.1) :=
    scanAux_pairwise _ _ _ _
  have hspans0 : finditer text.data = [] → chunkSpans text.data = [(0, text.data.length)] := by
    intro h
    unfold chunkSpans
    rw [h]
  have hspans : ∀ (m : Nat × String) (rest : List (Nat × String)),
      finditer text.data = m :: rest →
      chunkSpans text.data = spanList text.data.length ((m :: rest).map Prod.fst) := by
    intro m rest h
    unfold chunkSpans
    rw [h]
  refine ⟨?_, ?_, ?_, hspans0, ?_, ?_⟩
  · rcases hf : finditer text.data with _ | ⟨m, rest⟩
    · rw [hspans0 hf]
      simp
    · rw [hspans m rest hf]
      exact spanList_chain _ _
  · rcases hf : finditer text.data with _ | ⟨m, rest⟩
    · rw [hspans0 hf]
      simp
    · rw [hspans m rest hf]
      have h1 : ((spanList text.data.length ((m :: rest).map Prod.fst)).map Prod.fst).Pairwise
          (fun a b => a < b) := by
        rw [spanList_map_fst]
        rw [hf] at hpw
        exact List.pairwise_map.mpr hpw
      exact List.pairwise_map.mp h1
  · rcases hf : finditer text.data with _ | ⟨m, rest⟩
    · rw [hspans0 hf]
      simp
    · rw [hspans m rest hf, List.map_cons]
      exact spanList_getLast_snd text.data.length (rest.map Prod.fst) m.1
  · intro m ms h
    rw [hspans m ms h, List.map_cons]
    exact spanList_head_fst text.data.length m.1 (ms.map Prod.fst)
  · intro h
    rcases hms : finditer text.data with _ | ⟨m, rest⟩
    · exact absurd hms h
    · unfold split_into_chunks
      rw [hms, hspans m rest hms,
        if_neg (by simp), chunksFrom_eq_filterMap text.data (m :: rest)]

/-! ### Normalizer lemmas (C8)

Idempotence of `_normalize_text` is proved by showing that a second
application of either substitution pass leaves the output of
`sub2 ∘ sub1` unchanged.  The key facts: every region a pattern matches
consists of a leading `r`/`R` followed only by characters whose lower case
is not `r` (so the scanners walk over the region tail untouched), the
replacement block `"real-time"` is parsed back by `pat1` as exactly itself
and rejected by `pat2`, and a failing pattern match at a position keeps
failing after the suffix is rewritten by a scanner. -/

theorem uint32_le_iff_toNat (a b : UInt32) : a ≤ b ↔ a.toNat ≤ b.toNat := by
  simp [UInt32.le_def, BitVec.le_def, UInt32.toNat]

/-- A character whose lower case is an ASCII lower-case letter is a word
character. -/
theorem isWord_of_toLower {c d : Char} (h : c.toLower = d)
    (hd : 97 ≤ d.toNat ∧ d.toNat ≤ 122) : isWord c = true := by
  unfold isWord
  simp only [Char.toLower] at h
  split at h
  · rename_i hr
    have h1 : (65 : UInt32) ≤ c.val := (uint32_le_iff_toNat _ _).mpr (by exact hr.1)
    have h2 : c.val ≤ (90 : UInt32) := (uint32_le_iff_toNat _ _).mpr (by exact hr.2)
    simp [Char.isAlphanum, Char.isAlpha, Char.isUpper, h1, h2]
  · subst h
    have h1 : (97 : UInt32) ≤ c.val := (uint32_le_iff_toNat _ _).mpr (by exact hd.1)
    have h2 : c.val ≤ (122 : UInt32) := (uint32_le_iff_toNat _ _).mpr (by exact hd.2)
    simp [Char.isAlphanum, Char.isAlpha, Char.isLower, h1, h2]

theorem toLower_of_ws {c : Char} (h : isWS c = true) : c.toLower = c := by
  simp only [isWS, Bool.or_eq_true, decide_eq_true_eq] at h
  rcases h with ((((rfl | rfl) | rfl) | rfl) | rfl) | rfl <;> decide

theorem ws_toLower_ne {c : Char} (h : isWS c = true) : c.toLower ≠ 'r' := by
  rw [toLower_of_ws h]
  intro h2
  rw [h2] at h
  exact absurd h (by decide)

/-! Unfolding lemmas for the scanners. -/

theorem sub1_nil (w : Bool) : sub1 w [] = [] := by simp [sub1]

theorem sub1_cons_true (c : Char) (rest : List Char) :
    sub1 true (c :: rest) = c :: sub1 (isWord c) rest := by
  rw [sub1]
  simp

theorem sub1_cons_none {c : Char} {rest : List Char} (h : pat1 (c :: rest) = none) :
    sub1 false (c :: rest) = c :: sub1 (isWord c) rest := by
  rw [sub1]
  simp only [Bool.false_eq_true, if_false]
  split
  · rename_i r heq
    rw [h] at heq
    exact absurd heq (by simp)
  · rfl

theorem sub1_cons_some {c : Char} {rest r : List Char} (h : pat1 (c :: rest) = some r) :
    sub1 false (c :: rest) = realTimeChars ++ sub1 true r := by
  rw [sub1]
  simp only [Bool.false_eq_true, if_false]
  split
  · rename_i r' heq
    rw [h] at heq
    cases heq
    rfl
  · rename_i heq
    rw [h] at heq
    exact absurd heq (by simp)

theorem sub2_nil (w : Bool) : sub2 w [] = [] := by simp [sub2]

theorem sub2_cons_true (c : Char) (rest : List Char) :
    sub2 true (c :: rest) = c :: sub2 (isWord c) rest := by
  rw [sub2]
  simp

theorem sub2_cons_none {c : Char} {rest : List Char} (h : pat2 (c :: rest) = none) :
    sub2 false (c :: rest) = c :: sub2 (isWord c) rest := by
  rw [sub2]
  simp only [Bool.false_eq_true, if_false]
  split
  · rename_i r heq
    rw [h] at heq
    exact absurd heq (by simp)
  · rfl

theorem sub2_cons_some {c : Char} {rest r : List Char} (h : pat2 (c :: rest) = some r) :
    sub2 false (c :: rest) = realTimeChars ++ sub2 true r := by
  rw [sub2]
  simp only [Bool.false_eq_true, if_false]
  split
  · rename_i r' heq
    rw [h] at heq
    cases heq
    rfl
  · rename_i heq
    rw [h] at heq
    exact absurd heq (by simp)

theorem stateAfter_nil (w : Bool) : stateAfter w [] = w := rfl

theorem stateAfter_cons (w : Bool) (c : Char) (m : List Char) :
    stateAfter w (c :: m) = stateAfter (isWord c) m := rfl

theorem stateAfter_append (w : Bool) (a b : List Char) :
    stateAfter w (a ++ b) = stateAfter (stateAfter w a) b := by
  unfold stateAfter
  rw [List.foldl_append]

theorem pat1_none_of_head {c : Char} (l : List Char) (h : c.toLower ≠ 'r') :
    pat1 (c :: l) = none := by
  unfold pat1 stripCI
  rw [if_neg h]

theorem pat2_none_of_head {c : Char} (l : List Char) (h : c.toLower ≠ 'r') :
    pat2 (c :: l) = none := by
  unfold pat2 stripCI
  rw [if_neg h]

/-- The scanners pass over characters that cannot start a match (their lower
case is not `r`) untouched. -/
theorem sub1_append_noR :
    ∀ (m : List Char), (∀ c ∈ m, c.toLower ≠ 'r') →
      ∀ (w : Bool) (z : List Char), sub1 w (m ++ z) = m ++ sub1 (stateAfter w m) z := by
  intro m
  induction m with
  | nil => intro _ w z; rfl
  | cons c m' ih =>
    intro hm w z
    have hc : c.toLower ≠ 'r' := hm c (by simp)
    have hm' : ∀ x ∈ m', x.toLower ≠ 'r' := fun x hx => hm x (by simp [hx])
    rw [List.cons_append, stateAfter_cons]
    cases w with
    | true =>
      rw [sub1_cons_true, ih hm' (isWord c) z]
      simp
    | false =>
      rw [sub1_cons_none (pat1_none_of_head _ hc), ih hm' (isWord c) z]
      simp

theorem sub2_append_noR :
    ∀ (m : List Char), (∀ c ∈ m, c.toLower ≠ 'r') →
      ∀ (w : Bool) (z : List Char), sub2 w (m ++ z) = m ++ sub2 (stateAfter w m) z := by
  intro m
  induction m with
  | nil => intro _ w z; rfl
  | cons c m' ih =>
    intro hm w z
    have hc : c.toLower ≠ 'r' := hm c (by simp)
    have hm' : ∀ x ∈ m', x.toLower ≠ 'r' := fun x hx => hm x (by simp [hx])
    rw [List.cons_append, stateAfter_cons]
    cases w with
    | true =>
      rw [sub2_cons_true, ih hm' (isWord c) z]
      simp
    | false =>
      rw [sub2_cons_none (pat2_none_of_head _ hc), ih hm' (isWord c) z]
      simp

/-- Conversely, when a scanner's output starts with a block of
non-`r` characters, the input starts with the same block. -/
theorem sub1_append_noR_inv :
    ∀ (m : List Char), (∀ c ∈ m, c.toLower ≠ 'r') →
      ∀ (w : Bool) (L t : List Char), sub1 w L = m ++ t →
      ∃ z, L = m ++ z ∧ t = sub1 (stateAfter w m) z := by
  intro m
  induction m with
  | nil => intro _ w L t h; exact ⟨L, rfl, h.symm⟩
  | cons c m' ih =>
    intro hm w L t h
    cases L with
    | nil =>
      rw [sub1_nil] at h
      exact absurd h (by simp)
    | cons d rest =>
      have hc : c.toLower ≠ 'r' := hm c (by simp)
      have hm' : ∀ x ∈ m', x.toLower ≠ 'r' := fun x hx => hm x (by simp [hx])
      have hpass : sub1 true (d :: rest) = d :: sub1 (isWord d) rest ∧
          (pat1 (d :: rest) = none → sub1 false (d :: rest) = d :: sub1 (isWord d) rest) :=
        ⟨sub1_cons_true d rest, fun hp => sub1_cons_none hp⟩
      cases w with
      | true =>
        rw [hpass.1] at h
        simp only [List.cons_append, List.cons.injEq] at h
        obtain ⟨rfl, h2⟩ := h
        obtain ⟨z, hz1, hz2⟩ := ih hm' (isWord d) rest t h2
        exact ⟨z, by rw [List.cons_append, hz1], by rw [stateAfter_cons]; exact hz2⟩
      | false =>
        rcases hp : pat1 (d :: rest) with _ | r
        · rw [hpass.2 hp] at h
          simp only [List.cons_append, List.cons.injEq] at h
          obtain ⟨rfl, h2⟩ := h
          obtain ⟨z, hz1, hz2⟩ := ih hm' (isWord d) rest t h2
          exact ⟨z, by rw [List.cons_append, hz1], by rw [stateAfter_cons]; exact hz2⟩
        · rw [sub1_cons_some hp] at h
          exfalso
          simp only [realTimeChars, List.cons_append, List.cons.injEq] at h
          exact hc (by rw [← h.1]; decide)

theorem sub2_append_noR_inv :
    ∀ (m : List Char), (∀ c ∈ m, c.toLower ≠ 'r') →
      ∀ (w : Bool) (L t : List Char), sub2 w L = m ++ t →
      ∃ z, L = m ++ z ∧ t = sub2 (stateAfter w m) z := by
  intro m
  induction m with
  | nil => intro _ w L t h; exact ⟨L, rfl, h.symm⟩
  | cons c m' ih =>
    intro hm w L t h
    cases L with
    | nil =>
      rw [sub2_nil] at h
      exact absurd h (by simp)
    | cons d rest =>
      have hc : c.toLower ≠ 'r' := hm c (by simp)
      have hm' : ∀ x ∈ m', x.toLower ≠ 'r' := fun x hx => hm x (by simp [hx])
      cases w with
      | true =>
        rw [sub2_cons_true] at h
        simp only [List.cons_append, List.cons.injEq] at h
        obtain ⟨rfl, h2⟩ := h
        obtain ⟨z, hz1, hz2⟩ := ih hm' (isWord d) rest t h2
        exact ⟨z, by rw [List.cons_append, hz1], by rw [stateAfter_cons]; exact hz2⟩
      | false =>
        rcases hp : pat2 (d :: rest) with _ | r
        · rw [sub2_cons_none hp] at h
          simp only [List.cons_append, List.cons.injEq] at h
          obtain ⟨rfl, h2⟩ := h
          obtain ⟨z, hz1, hz2⟩ := ih hm' (isWord d) rest t h2
          exact ⟨z, by rw [List.cons_append, hz1], by rw [stateAfter_cons]; exact hz2⟩
        · rw [sub2_cons_some hp] at h
          exfalso
          simp only [realTimeChars, List.cons_append, List.cons.injEq] at h
          exact hc (by rw [← h.1]; decide)

/-- The trailing-`\b` test survives a scanner: the scanners never turn a
non-word head into a word head (a replacement block starts with `r`). -/
theorem boundaryOk_sub1 {w : Bool} {z : List Char} (h : boundaryOk (sub1 w z) = true) :
    boundaryOk z = true := by
  cases z with
  | nil => rfl
  | cons d rest =>
    cases w with
    | true =>
      rw [sub1_cons_true] at h
      simpa [boundaryOk] using h
    | false =>
      rcases hp : pat1 (d :: rest) with _ | r
      · rw [sub1_cons_none hp] at h
        simpa [boundaryOk] using h
      · rw [sub1_cons_some hp] at h
        exact absurd h (by simp [realTimeChars, boundaryOk, isWord])

theorem boundaryOk_sub2 {w : Bool} {z : List Char} (h : boundaryOk (sub2 w z) = true) :
    boundaryOk z = true := by
  cases z with
  | nil => rfl
  | cons d rest =>
    cases w with
    | true =>
      rw [sub2_cons_true] at h
      simpa [boundaryOk] using h
    | false =>
      rcases hp : pat2 (d :: rest) with _ | r
      · rw [sub2_cons_none hp] at h
        simpa [boundaryOk] using h
      · rw [sub2_cons_some hp] at h
        exact absurd h (by simp [realTimeChars, boundaryOk, isWord])

theorem stripCI_recomp {ps m : List Char}
    (h : List.Forall₂ (fun c p => c.toLower = p) m ps) :
    ∀ z, stripCI ps (m ++ z) = some z := by
  induction h with
  | nil => intro z; rfl
  | cons ha _ ih =>
    intro z
    rw [List.cons_append]
    unfold stripCI
    rw [if_pos ha]
    exact ih z

theorem stripCI_decomp :
    ∀ {ps l r : List Char}, stripCI ps l = some r →
      ∃ m, l = m ++ r ∧ List.Forall₂ (fun c p => c.toLower = p) m ps := by
  intro ps
  induction ps with
  | nil =>
    intro l r h
    simp [stripCI] at h
    exact ⟨[], by simp [h], List.Forall₂.nil⟩
  | cons p ps' ih =>
    intro l r h
    cases l with
    | nil => simp [stripCI] at h
    | cons c cs =>
      unfold stripCI at h
      split at h
      · rename_i hcp
        obtain ⟨m', hm1, hm2⟩ := ih h
        exact ⟨c :: m', by simp [hm1], List.Forall₂.cons hcp hm2⟩
      · exact absurd h (by simp)

theorem dropWhile_ws_append :
    ∀ (w : List Char), (∀ c ∈ w, isWS c = true) →
      ∀ z, (w ++ z).dropWhile isWS = z.dropWhile isWS := by
  intro w
  induction w with
  | nil => intro _ z; rfl
  | cons c cs ih =>
    intro hw z
    rw [List.cons_append, List.dropWhile_cons, if_pos (hw c (by simp))]
    exact ih (fun x hx => hw x (by simp [hx])) z

theorem forall₂_four {m : List Char} {p1 p2 p3 p4 : Char}
    (h : List.Forall₂ (fun c p => c.toLower = p) m [p1, p2, p3, p4]) :
    ∃ a b c d, m = [a, b, c, d]
      ∧ a.toLower = p1 ∧ b.toLower = p2 ∧ c.toLower = p3 ∧ d.toLower = p4 := by
  rw [List.forall₂_cons_right_iff] at h
  obtain ⟨a, l1, ha, h, rfl⟩ := h
  rw [List.forall₂_cons_right_iff] at h
  obtain ⟨b, l2, hb, h, rfl⟩ := h
  rw [List.forall₂_cons_right_iff] at h
  obtain ⟨c, l3, hc, h, rfl⟩ := h
  rw [List.forall₂_cons_right_iff] at h
  obtain ⟨d, l4, hd, h, rfl⟩ := h
  rw [List.forall₂_nil_right_iff] at h
  subst h
  exact ⟨a, b, c, d, rfl, ha, hb, hc, hd⟩

theorem stateAfter_time {m : List Char} (w : Bool)
    (h : List.Forall₂ (fun c p => c.toLower = p) m ['t', 'i', 'm', 'e']) :
    stateAfter w m = true := by
  obtain ⟨a, b, c, d, rfl, _, _, _, hd⟩ := forall₂_four h
  show isWord d = true
  exact isWord_of_toLower hd (by decide)

theorem noR_of_forall₂ {m ps : List Char}
    (h : List.Forall₂ (fun c p => c.toLower = p) m ps)
    (hps : ∀ p ∈ ps, p ≠ 'r') : ∀ c ∈ m, c.toLower ≠ 'r' := by
  induction h with
  | nil => simp
  | cons ha h ih =>
    intro c hc
    rcases List.mem_cons.mp hc with rfl | hc2
    · rw [ha]
      exact hps _ (by simp)
    · exact ih (fun p hp => hps p (by simp [hp])) c hc2

theorem not_ws_of_toLower {c d : Char} (h : c.toLower = d) (hd : isWS d = false) :
    isWS c = false := by
  by_contra hc
  rw [Bool.not_eq_false] at hc
  rw [toLower_of_ws hc] at h
  rw [h] at hc
  rw [hc] at hd
  exact absurd hd (by simp)

theorem patTime_decomp {l r : List Char} (h : patTime l = some r) :
    ∃ m, l = m ++ r ∧ List.Forall₂ (fun c p => c.toLower = p) m ['t', 'i', 'm', 'e']
      ∧ boundaryOk r = true := by
  unfold patTime at h
  split at h
  · rename_i l3 h3
    split at h
    · rename_i hb
      cases h
      obtain ⟨m, hm1, hm2⟩ := stripCI_decomp h3
      exact ⟨m, hm1, hm2, hb⟩
    · exact absurd h (by simp)
  · exact absurd h (by simp)

theorem patTime_recomp {m r : List Char}
    (hF : List.Forall₂ (fun c p => c.toLower = p) m ['t', 'i', 'm', 'e'])
    (hb : boundaryOk r = true) : patTime (m ++ r) = some r := by
  simp only [patTime, stripCI_recomp hF, hb, if_true]

theorem pat1_decomp {L r : List Char} (h : pat1 L = some r) :
    ∃ m1 w1 w2 m2,
      L = m1 ++ (w1 ++ '-' :: (w2 ++ (m2 ++ r)))
      ∧ List.Forall₂ (fun c p => c.toLower = p) m1 ['r', 'e', 'a', 'l']
      ∧ (∀ c ∈ w1, isWS c = true)
      ∧ (∀ c ∈ w2, isWS c = true)
      ∧ List.Forall₂ (fun c p => c.toLower = p) m2 ['t', 'i', 'm', 'e']
      ∧ boundaryOk r = true := by
  unfold pat1 at h
  split at h
  · rename_i l1 h1
    obtain ⟨m1, hL, hF1⟩ := stripCI_decomp h1
    unfold pat1Tail at h
    split at h
    · rename_i l2 h2
      obtain ⟨m2, hD, hF2, hb⟩ := patTime_decomp h
      obtain ⟨w1, hw1all, hl1⟩ : ∃ w1, (∀ c ∈ w1, isWS c = true) ∧ l1 = w1 ++ ('-' :: l2) :=
        ⟨l1.takeWhile isWS, fun c hc => List.mem_takeWhile_imp hc, by
          conv_lhs => rw [← List.takeWhile_append_dropWhile (p := isWS) (l := l1)]
          rw [h2]⟩
      obtain ⟨w2, hw2all, hl2⟩ : ∃ w2, (∀ c ∈ w2, isWS c = true) ∧ l2 = w2 ++ (m2 ++ r) :=
        ⟨l2.takeWhile isWS, fun c hc => List.mem_takeWhile_imp hc, by
          conv_lhs => rw [← List.takeWhile_append_dropWhile (p := isWS) (l := l2)]
          rw [hD]⟩
      exact ⟨m1, w1, w2, m2, by rw [hL, hl1, hl2], hF1, hw1all, hw2all, hF2, hb⟩
    · exact absurd h (by simp)
  · exact absurd h (by simp)

theorem pat1_recomp {m1 w1 w2 m2 r : List Char}
    (hF1 : List.Forall₂ (fun c p => c.toLower = p) m1 ['r', 'e', 'a', 'l'])
    (hw1 : ∀ c ∈ w1, isWS c = true) (hw2 : ∀ c ∈ w2, isWS c = true)
    (hF2 : List.Forall₂ (fun c p => c.toLower = p) m2 ['t', 'i', 'm', 'e'])
    (hb : boundaryOk r = true) :
    pat1 (m1 ++ (w1 ++ '-' :: (w2 ++ (m2 ++ r)))) = some r := by
  obtain ⟨a, b, c, d, rfl, ha, hb2, hc2, hd2⟩ := forall₂_four hF2
  have hdm : (([a, b, c, d] ++ r) : List Char).dropWhile isWS = [a, b, c, d] ++ r := by
    rw [List.cons_append, List.dropWhile_cons,
      if_neg (by simp [not_ws_of_toLower ha (by decide)])]
  simp only [pat1, stripCI_recomp hF1, pat1Tail, dropWhile_ws_append w1 hw1,
    List.dropWhile_cons, show isWS '-' = false from by decide, Bool.false_eq_true, if_false,
    dropWhile_ws_append w2 hw2, hdm]
  exact patTime_recomp hF2 hb

theorem pat2_decomp {L r : List Char} (h : pat2 L = some r) :
    ∃ m1 w m2,
      L = m1 ++ (w ++ (m2 ++ r))
      ∧ List.Forall₂ (fun c p => c.toLower = p) m1 ['r', 'e', 'a', 'l']
      ∧ w ≠ []
      ∧ (∀ c ∈ w, isWS c = true)
      ∧ List.Forall₂ (fun c p => c.toLower = p) m2 ['t', 'i', 'm', 'e']
      ∧ boundaryOk r = true := by
  unfold pat2 at h
  split at h
  · rename_i l1 h1
    obtain ⟨m1, hL, hF1⟩ := stripCI_decomp h1
    cases hc : l1 with
    | nil =>
      rw [hc] at h
      simp [pat2Tail] at h
    | cons c cs =>
      rw [hc] at h
      simp only [pat2Tail] at h
      split at h
      · rename_i hwsc
        obtain ⟨m2, hD, hF2, hb⟩ := patTime_decomp h
        obtain ⟨w, hwall, hwne, hl1⟩ : ∃ w, (∀ x ∈ w, isWS x = true) ∧ w ≠ []
            ∧ c :: cs = w ++ (m2 ++ r) := by
          refine ⟨(c :: cs).takeWhile isWS, fun x hx => List.mem_takeWhile_imp hx, ?_, ?_⟩
          · rw [List.takeWhile_cons, if_pos hwsc]
            simp
          · conv_lhs => rw [← List.takeWhile_append_dropWhile (p := isWS) (l := c :: cs)]
            rw [hD]
        exact ⟨m1, w, m2, by rw [hL, hc, hl1], hF1, hwne, hwall, hF2, hb⟩
      · exact absurd h (by simp)
  · exact absurd h (by simp)

theorem pat2_recomp {m1 w m2 r : List Char}
    (hF1 : List.Forall₂ (fun c p => c.toLower = p) m1 ['r', 'e', 'a', 'l'])
    (hwne : w ≠ []) (hw : ∀ c ∈ w, isWS c = true)
    (hF2 : List.Forall₂ (fun c p => c.toLower = p) m2 ['t', 'i', 'm', 'e'])
    (hb : boundaryOk r = true) :
    pat2 (m1 ++ (w ++ (m2 ++ r))) = some r := by
  obtain ⟨a, b, c, d, rfl, ha, hb2, hc2, hd2⟩ := forall₂_four hF2
  cases w with
  | nil => exact absurd rfl hwne
  | cons wc wrest =>
    have hwsc : isWS wc = true := hw wc (by simp)
    have hdm : (([a, b, c, d] ++ r) : List Char).dropWhile isWS = [a, b, c, d] ++ r := by
      rw [List.cons_append, List.dropWhile_cons,
        if_neg (by simp [not_ws_of_toLower ha (by decide)])]
    have hwrest : ∀ x ∈ wrest, isWS x = true := fun x hx => hw x (by simp [hx])
    have hstep : (wc :: (wrest ++ ([a, b, c, d] ++ r))).dropWhile isWS = [a, b, c, d] ++ r := by
      rw [List.dropWhile_cons, if_pos hwsc, dropWhile_ws_append wrest hwrest, hdm]
    have hassoc : m1 ++ ((wc :: wrest) ++ ([a, b, c, d] ++ r)) =
        m1 ++ (wc :: (wrest ++ ([a, b, c, d] ++ r))) := by simp
    rw [hassoc]
    simp only [pat2, stripCI_recomp hF1, pat2Tail, hwsc, if_true, hstep]
    exact patTime_recomp hF2 hb

theorem pat1_none_of_pat2_some {L r : List Char} (h : pat2 L = some r) : pat1 L = none := by
  obtain ⟨m1, w, m2, hL, hF1, hwne, hw, hF2, hb⟩ := pat2_decomp h
  obtain ⟨a, b, c, d, rfl, ha, _, _, _⟩ := forall₂_four hF2
  subst hL
  have hdm : (([a, b, c, d] ++ r) : List Char).dropWhile isWS = [a, b, c, d] ++ r := by
    rw [List.cons_append, List.dropWhile_cons,
      if_neg (by simp [not_ws_of_toLower ha (by decide)])]
  simp only [pat1, stripCI_recomp hF1, pat1Tail, dropWhile_ws_append w hw, hdm]
  split
  · rename_i l2 heq
    exfalso
    rw [List.cons_append] at heq
    injection heq with h1 _
    rw [h1] at ha
    exact absurd ha (by decide)
  · rfl

theorem pat1_length9 {l r : List Char} (h : pat1 l = some r) : r.length + 9 ≤ l.length := by
  obtain ⟨m1, w1, w2, m2, hL, hF1, _, _, hF2, _⟩ := pat1_decomp h
  have h1 : m1.length = 4 := hF1.length_eq
  have h2 : m2.length = 4 := hF2.length_eq
  subst hL
  simp only [List.length_append, List.length_cons]
  omega

theorem pat2_length9 {l r : List Char} (h : pat2 l = some r) : r.length + 9 ≤ l.length := by
  obtain ⟨m1, w, m2, hL, hF1, hwne, _, hF2, _⟩ := pat2_decomp h
  have h1 : m1.length = 4 := hF1.length_eq
  have h2 : m2.length = 4 := hF2.length_eq
  have h3 : 1 ≤ w.length := by
    cases w
    · exact absurd rfl hwne
    · simp
  subst hL
  simp only [List.length_append]
  omega

theorem sub1_length_le :
    ∀ (n : Nat) (l : List Char), l.length ≤ n → ∀ w, (sub1 w l).length ≤ l.length := by
  intro n
  induction n with
  | zero =>
    intro l hl w
    rw [List.length_eq_zero.mp (Nat.le_zero.mp hl), sub1_nil]
  | succ k ih =>
    intro l hl w
    cases l with
    | nil => rw [sub1_nil]
    | cons c rest =>
      simp only [List.length_cons] at hl
      cases w with
      | true =>
        rw [sub1_cons_true]
        simp only [List.length_cons]
        exact Nat.succ_le_succ (ih rest (by omega) _)
      | false =>
        rcases hp : pat1 (c :: rest) with _ | r
        · rw [sub1_cons_none hp]
          simp only [List.length_cons]
          exact Nat.succ_le_succ (ih rest (by omega) _)
        · rw [sub1_cons_some hp]
          have h9 := pat1_length9 hp
          have hr := ih r (by have := pat1_length hp; simp only [List.length_cons] at this; omega) true
          simp only [List.length_append, realTimeChars, List.length_cons, List.length_nil] at h9 ⊢
          omega

theorem stateAfter_pre_time {m2 : List Char}
    (hF2 : List.Forall₂ (fun c p => c.toLower = p) m2 ['t', 'i', 'm', 'e'])
    (pre : List Char) (w : Bool) :
    stateAfter w (pre ++ m2) = true := by
  rw [stateAfter_append]
  exact stateAfter_time _ hF2

/-- The tail of a `pat2` match region: after its leading `r`, a match
consists only of characters that cannot start a match, and leaves the
scanner in the word state. -/
theorem pat2_tail_decomp {c : Char} {rest r : List Char} (h : pat2 (c :: rest) = some r) :
    ∃ mt, rest = mt ++ r ∧ (∀ x ∈ mt, x.toLower ≠ 'r') ∧ ∀ w, stateAfter w mt = true := by
  obtain ⟨m1, wr, m2, hL, hF1, hwne, hws, hF2, hb⟩ := pat2_decomp h
  obtain ⟨a1, a2, a3, a4, rfl, ha1, ha2, ha3, ha4⟩ := forall₂_four hF1
  refine ⟨([a2, a3, a4] ++ wr) ++ m2, ?_, ?_, fun w => stateAfter_pre_time hF2 _ w⟩
  · rw [show ([a1, a2, a3, a4] ++ (wr ++ (m2 ++ r)) : List Char) =
      a1 :: ((([a2, a3, a4] ++ wr) ++ m2) ++ r) from by simp] at hL
    exact List.tail_eq_of_cons_eq hL
  · intro x hx
    simp only [List.append_assoc, List.mem_append, List.mem_cons, List.not_mem_nil,
      or_false] at hx
    rcases hx with (rfl | rfl | rfl) | hx | hx
    · rw [ha2]; decide
    · rw [ha3]; decide
    · rw [ha4]; decide
    · exact ws_toLower_ne (hws x hx)
    · exact noR_of_forall₂ hF2 (by decide) x hx

/-- The tail of a `pat1` match region, likewise. -/
theorem pat1_tail_decomp {c : Char} {rest r : List Char} (h : pat1 (c :: rest) = some r) :
    ∃ mt, rest = mt ++ r ∧ (∀ x ∈ mt, x.toLower ≠ 'r') ∧ ∀ w, stateAfter w mt = true := by
  obtain ⟨m1, w1, w2, m2, hL, hF1, hw1, hw2, hF2, hb⟩ := pat1_decomp h
  obtain ⟨a1, a2, a3, a4, rfl, ha1, ha2, ha3, ha4⟩ := forall₂_four hF1
  refine ⟨(([a2, a3, a4] ++ w1) ++ ('-' :: w2)) ++ m2, ?_, ?_,
    fun w => stateAfter_pre_time hF2 _ w⟩
  · rw [show ([a1, a2, a3, a4] ++ (w1 ++ '-' :: (w2 ++ (m2 ++ r))) : List Char) =
      a1 :: (((([a2, a3, a4] ++ w1) ++ ('-' :: w2)) ++ m2) ++ r) from by simp] at hL
    exact List.tail_eq_of_cons_eq hL
  · intro x hx
    rcases List.mem_append.mp hx with hx1 | hxm2
    · rcases List.mem_append.mp hx1 with hx2 | hx3
      · rcases List.mem_append.mp hx2 with hx4 | hxw1
        · simp only [List.mem_cons, List.not_mem_nil, or_false] at hx4
          rcases hx4 with rfl | rfl | rfl
          · rw [ha2]; decide
          · rw [ha3]; decide
          · rw [ha4]; decide
        · exact ws_toLower_ne (hw1 x hxw1)
      · rcases List.mem_cons.mp hx3 with rfl | hxw2
        · decide
        · exact ws_toLower_ne (hw2 x hxw2)
    · exact noR_of_forall₂ hF2 (by decide) x hxm2

/-- A failing `pat2` attempt keeps failing after `sub2` rewrites the rest of
the text. -/
theorem pat2_none_sub2 {c : Char} {l : List Char} (w : Bool)
    (h : pat2 (c :: l) = none) : pat2 (c :: sub2 w l) = none := by
  rcases hq : pat2 (c :: sub2 w l) with _ | r'
  · rfl
  · exfalso
    obtain ⟨m1, wr, m2, hL, hF1, hwne, hws, hF2, hb⟩ := pat2_decomp hq
    obtain ⟨a1, a2, a3, a4, rfl, ha1, ha2, ha3, ha4⟩ := forall₂_four hF1
    have hL2 : c = a1 ∧ sub2 w l = (([a2, a3, a4] ++ wr) ++ m2) ++ r' := by
      rw [show ([a1, a2, a3, a4] ++ (wr ++ (m2 ++ r')) : List Char) =
        a1 :: ((([a2, a3, a4] ++ wr) ++ m2) ++ r') from by simp] at hL
      exact ⟨List.head_eq_of_cons_eq hL, List.tail_eq_of_cons_eq hL⟩
    obtain ⟨rfl, hsub⟩ := hL2
    have hnoR : ∀ x ∈ ([a2, a3, a4] ++ wr) ++ m2, x.toLower ≠ 'r' := by
      intro x hx
      simp only [List.append_assoc, List.mem_append, List.mem_cons, List.not_mem_nil,
        or_false] at hx
      rcases hx with (rfl | rfl | rfl) | hx | hx
      · rw [ha2]; decide
      · rw [ha3]; decide
      · rw [ha4]; decide
      · exact ws_toLower_ne (hws x hx)
      · exact noR_of_forall₂ hF2 (by decide) x hx
    obtain ⟨z, hz1, hz2⟩ := sub2_append_noR_inv _ hnoR w l r' hsub
    have hst : stateAfter w (([a2, a3, a4] ++ wr) ++ m2) = true := stateAfter_pre_time hF2 _ w
    rw [hst] at hz2
    have hbz : boundaryOk z = true := boundaryOk_sub2 (by rw [← hz2]; exact hb)
    have hF1' : List.Forall₂ (fun x p => x.toLower = p) [c, a2, a3, a4] ['r', 'e', 'a', 'l'] :=
      .cons ha1 (.cons ha2 (.cons ha3 (.cons ha4 .nil)))
    have hcontra : pat2 (c :: l) = some z := by
      rw [hz1]
      rw [show (c :: ((([a2, a3, a4] ++ wr) ++ m2) ++ z) : List Char) =
        [c, a2, a3, a4] ++ (wr ++ (m2 ++ z)) from by simp]
      exact pat2_recomp hF1' hwne hws hF2 hbz
    rw [hcontra] at h
    exact absurd h (by simp)

/-- A failing `pat1` attempt keeps failing after `sub2` rewrites the rest of
the text. -/
theorem pat1_none_sub2 {c : Char} {l : List Char} (w : Bool)
    (h : pat1 (c :: l) = none) : pat1 (c :: sub2 w l) = none := by
  rcases hq : pat1 (c :: sub2 w l) with _ | r'
  · rfl
  · exfalso
    obtain ⟨m1, w1, w2, m2, hL, hF1, hw1, hw2, hF2, hb⟩ := pat1_decomp hq
    obtain ⟨a1, a2, a3, a4, rfl, ha1, ha2, ha3, ha4⟩ := forall₂_four hF1
    have hL2 : c = a1 ∧ sub2 w l = ((([a2, a3, a4] ++ w1) ++ ('-' :: w2)) ++ m2) ++ r' := by
      rw [show ([a1, a2, a3, a4] ++ (w1 ++ '-' :: (w2 ++ (m2 ++ r'))) : List Char) =
        a1 :: (((([a2, a3, a4] ++ w1) ++ ('-' :: w2)) ++ m2) ++ r') from by simp] at hL
      exact ⟨List.head_eq_of_cons_eq hL, List.tail_eq_of_cons_eq hL⟩
    obtain ⟨rfl, hsub⟩ := hL2
    have hnoR : ∀ x ∈ (([a2, a3, a4] ++ w1) ++ ('-' :: w2)) ++ m2, x.toLower ≠ 'r' := by
      intro x hx
      rcases List.mem_append.mp hx with hx1 | hxm2
      · rcases List.mem_append.mp hx1 with hx2 | hx3
        · rcases List.mem_append.mp hx2 with hx4 | hxw1
          · simp only [List.mem_cons, List.not_mem_nil, or_false] at hx4
            rcases hx4 with rfl | rfl | rfl
            · rw [ha2]; decide
            · rw [ha3]; decide
            · rw [ha4]; decide
          · exact ws_toLower_ne (hw1 x hxw1)
        · rcases List.mem_cons.mp hx3 with rfl | hxw2
          · decide
          · exact ws_toLower_ne (hw2 x hxw2)
      · exact noR_of_forall₂ hF2 (by decide) x hxm2
    obtain ⟨z, hz1, hz2⟩ := sub2_append_noR_inv _ hnoR w l r' hsub
    have hst : stateAfter w ((([a2, a3, a4] ++ w1) ++ ('-' :: w2)) ++ m2) = true :=
      stateAfter_pre_time hF2 _ w
    rw [hst] at hz2
    have hbz : boundaryOk z = true := boundaryOk_sub2 (by rw [← hz2]; exact hb)
    have hF1' : List.Forall₂ (fun x p => x.toLower = p) [c, a2, a3, a4] ['r', 'e', 'a', 'l'] :=
      .cons ha1 (.cons ha2 (.cons ha3 (.cons ha4 .nil)))
    have hcontra : pat1 (c :: l) = some z := by
      rw [hz1]
      rw [show (c :: (((([a2, a3, a4] ++ w1) ++ ('-' :: w2)) ++ m2) ++ z) : List Char) =
        [c, a2, a3, a4] ++ (w1 ++ '-' :: (w2 ++ (m2 ++ z))) from by simp]
      exact pat1_recomp hF1' hw1 hw2 hF2 hbz
    rw [hcontra] at h
    exact absurd h (by simp)

/-- A failing `pat1` attempt keeps failing after `sub1` rewrites the rest of
the text. -/
theorem pat1_none_sub1 {c : Char} {l : List Char} (w : Bool)
    (h : pat1 (c :: l) = none) : pat1 (c :: sub1 w l) = none := by
  rcases hq : pat1 (c :: sub1 w l) with _ | r'
  · rfl
  · exfalso
    obtain ⟨m1, w1, w2, m2, hL, hF1, hw1, hw2, hF2, hb⟩ := pat1_decomp hq
    obtain ⟨a1, a2, a3, a4, rfl, ha1, ha2, ha3, ha4⟩ := forall₂_four hF1
    have hL2 : c = a1 ∧ sub1 w l = ((([a2, a3, a4] ++ w1) ++ ('-' :: w2)) ++ m2) ++ r' := by
      rw [show ([a1, a2, a3, a4] ++ (w1 ++ '-' :: (w2 ++ (m2 ++ r'))) : List Char) =
        a1 :: (((([a2, a3, a4] ++ w1) ++ ('-' :: w2)) ++ m2) ++ r') from by simp] at hL
      exact ⟨List.head_eq_of_cons_eq hL, List.tail_eq_of_cons_eq hL⟩
    obtain ⟨rfl, hsub⟩ := hL2
    have hnoR : ∀ x ∈ (([a2, a3, a4] ++ w1) ++ ('-' :: w2)) ++ m2, x.toLower ≠ 'r' := by
      intro x hx
      rcases List.mem_append.mp hx with hx1 | hxm2
      · rcases List.mem_append.mp hx1 with hx2 | hx3
        · rcases List.mem_append.mp hx2 with hx4 | hxw1
          · simp only [List.mem_cons, List.not_mem_nil, or_false] at hx4
            rcases hx4 with rfl | rfl | rfl
            · rw [ha2]; decide
            · rw [ha3]; decide
            · rw [ha4]; decide
          · exact ws_toLower_ne (hw1 x hxw1)
        · rcases List.mem_cons.mp hx3 with rfl | hxw2
          · decide
          · exact ws_toLower_ne (hw2 x hxw2)
      · exact noR_of_forall₂ hF2 (by decide) x hxm2
    obtain ⟨z, hz1, hz2⟩ := sub1_append_noR_inv _ hnoR w l r' hsub
    have hst : stateAfter w ((([a2, a3, a4] ++ w1) ++ ('-' :: w2)) ++ m2) = true :=
      stateAfter_pre_time hF2 _ w
    rw [hst] at hz2
    have hbz : boundaryOk z = true := boundaryOk_sub1 (by rw [← hz2]; exact hb)
    have hF1' : List.Forall₂ (fun x p => x.toLower = p) [c, a2, a3, a4] ['r', 'e', 'a', 'l'] :=
      .cons ha1 (.cons ha2 (.cons ha3 (.cons ha4 .nil)))
    have hcontra : pat1 (c :: l) = some z := by
      rw [hz1]
      rw [show (c :: (((([a2, a3, a4] ++ w1) ++ ('-' :: w2)) ++ m2) ++ z) : List Char) =
        [c, a2, a3, a4] ++ (w1 ++ '-' :: (w2 ++ (m2 ++ z))) from by simp]
      exact pat1_recomp hF1' hw1 hw2 hF2 hbz
    rw [hcontra] at h
    exact absurd h (by simp)

/-- `pat1` at the head of the replacement text consumes exactly
`"real-time"` and succeeds iff the trailing boundary holds. -/
theorem pat1_rt (z : List Char) :
    pat1 (realTimeChars ++ z) = if boundaryOk z then some z else none := rfl

/-- `pat2` never matches at the head of the replacement text (no whitespace
follows `real`). -/
theorem pat2_rt_none (z : List Char) : pat2 (realTimeChars ++ z) = none := rfl

theorem stateAfter_rt_tail (w : Bool) :
    stateAfter w (['e', 'a', 'l', '-', 't', 'i', 'm', 'e'] : List Char) = true := by
  cases w <;> decide

/-- The scanners pass over an inserted replacement block and resume in the
word state. -/
theorem sub1_rt (w : Bool) (z : List Char) :
    sub1 w (realTimeChars ++ z) = realTimeChars ++ sub1 true z := by
  have htail : realTimeChars ++ z
      = 'r' :: ((['e', 'a', 'l', '-', 't', 'i', 'm', 'e'] : List Char) ++ z) := by
    simp [realTimeChars]
  have hpass : sub1 (isWord 'r') ((['e', 'a', 'l', '-', 't', 'i', 'm', 'e'] : List Char) ++ z)
      = ['e', 'a', 'l', '-', 't', 'i', 'm', 'e'] ++ sub1 true z := by
    rw [sub1_append_noR _ (by decide) (isWord 'r') z, stateAfter_rt_tail]
  cases w with
  | true =>
    rw [htail, sub1_cons_true, hpass]
    simp [realTimeChars]
  | false =>
    rcases hp : pat1 (realTimeChars ++ z) with _ | r
    · rw [htail] at hp
      rw [htail, sub1_cons_none hp, hpass]
      simp [realTimeChars]
    · have hb : boundaryOk z = true := by
        by_contra hbc
        rw [pat1_rt z, if_neg hbc] at hp
        exact absurd hp (by simp)
      have hrz : r = z := by
        rw [pat1_rt z, if_pos hb] at hp
        injection hp with h3
        exact h3.symm
      subst hrz
      rw [htail] at hp
      rw [htail, sub1_cons_some hp]

theorem sub2_rt (w : Bool) (z : List Char) :
    sub2 w (realTimeChars ++ z) = realTimeChars ++ sub2 true z := by
  have htail : realTimeChars ++ z
      = 'r' :: ((['e', 'a', 'l', '-', 't', 'i', 'm', 'e'] : List Char) ++ z) := by
    simp [realTimeChars]
  have hpass : sub2 (isWord 'r') ((['e', 'a', 'l', '-', 't', 'i', 'm', 'e'] : List Char) ++ z)
      = ['e', 'a', 'l', '-', 't', 'i', 'm', 'e'] ++ sub2 true z := by
    rw [sub2_append_noR _ (by decide) (isWord 'r') z, stateAfter_rt_tail]
  cases w with
  | true =>
    rw [htail, sub2_cons_true, hpass]
    simp [realTimeChars]
  | false =>
    have hp : pat2 ('r' :: ((['e', 'a', 'l', '-', 't', 'i', 'm', 'e'] : List Char) ++ z)) = none := by
      rw [← htail]
      exact pat2_rt_none z
    rw [htail, sub2_cons_none hp, hpass]
    simp [realTimeChars]

/-- Each substitution pass is idempotent (over lists of length at most `n`,
the bound driving the induction). -/
theorem sub1_idem :
    ∀ (n : Nat) (l : List Char), l.length ≤ n → ∀ w, sub1 w (sub1 w l) = sub1 w l := by
  intro n
  induction n with
  | zero =>
    intro l hl w
    rw [List.length_eq_zero.mp (Nat.le_zero.mp hl)]
    simp [sub1_nil]
  | succ k ih =>
    intro l hl w
    cases l with
    | nil => simp [sub1_nil]
    | cons c rest =>
      simp only [List.length_cons] at hl
      cases w with
      | true =>
        rw [sub1_cons_true, sub1_cons_true, ih rest (by omega)]
      | false =>
        rcases hp : pat1 (c :: rest) with _ | r
        · rw [sub1_cons_none hp, sub1_cons_none (pat1_none_sub1 (isWord c) hp),
            ih rest (by omega)]
        · have hrlen : r.length ≤ k := by
            have := pat1_length hp
            simp only [List.length_cons] at this
            omega
          rw [sub1_cons_some hp, sub1_rt, ih r hrlen]

theorem sub2_idem :
    ∀ (n : Nat) (l : List Char), l.length ≤ n → ∀ w, sub2 w (sub2 w l) = sub2 w l := by
  intro n
  induction n with
  | zero =>
    intro l hl w
    rw [List.length_eq_zero.mp (Nat.le_zero.mp hl)]
    simp [sub2_nil]
  | succ k ih =>
    intro l hl w
    cases l with
    | nil => simp [sub2_nil]
    | cons c rest =>
      simp only [List.length_cons] at hl
      cases w with
      | true =>
        rw [sub2_cons_true, sub2_cons_true, ih rest (by omega)]
      | false =>
        rcases hp : pat2 (c :: rest) with _ | r
        · rw [sub2_cons_none hp, sub2_cons_none (pat2_none_sub2 (isWord c) hp),
            ih rest (by omega)]
        · have hrlen : r.length ≤ k := by
            have := pat2_length hp
            simp only [List.length_cons] at this
            omega
          rw [sub2_cons_some hp, sub2_rt, ih r hrlen]

/-- The key bridge: a list already fixed by the first pass stays fixed by the
first pass after the second pass rewrites it (any `real time` occurrence the
second pass replaces becomes a literal `real-time`, which the first pass
maps to itself because its trailing boundary still holds). -/
theorem sub1_fix_sub2 :
    ∀ (n : Nat) (l : List Char), l.length ≤ n → ∀ w, sub1 w l = l →
      sub1 w (sub2 w l) = sub2 w l := by
  intro n
  induction n with
  | zero =>
    intro l hl w _
    rw [List.length_eq_zero.mp (Nat.le_zero.mp hl)]
    simp [sub1_nil, sub2_nil]
  | succ k ih =>
    intro l hl w hfix
    cases l with
    | nil => simp [sub1_nil, sub2_nil]
    | cons c rest =>
      simp only [List.length_cons] at hl
      cases w with
      | true =>
        have hrest : sub1 (isWord c) rest = rest := by
          rw [sub1_cons_true] at hfix
          exact List.tail_eq_of_cons_eq hfix
        rw [sub2_cons_true, sub1_cons_true, ih rest (by omega) (isWord c) hrest]
      | false =>
        rcases hp2 : pat2 (c :: rest) with _ | r
        · rcases hp1 : pat1 (c :: rest) with _ | r1
          · have hrest : sub1 (isWord c) rest = rest := by
              rw [sub1_cons_none hp1] at hfix
              exact List.tail_eq_of_cons_eq hfix
            rw [sub2_cons_none hp2, sub1_cons_none (pat1_none_sub2 (isWord c) hp1),
              ih rest (by omega) (isWord c) hrest]
          · rw [sub1_cons_some hp1] at hfix
            have hlen2 : (sub1 true r1).length ≤ r1.length :=
              sub1_length_le r1.length r1 (le_refl _) true
            have hlenfix : 9 + (sub1 true r1).length = (c :: rest).length := by
              rw [← hfix]
              simp [realTimeChars]
              omega
            obtain ⟨m1, w1, w2, m2, hL, hF1, hw1, hw2, hF2, hb⟩ := pat1_decomp hp1
            have hm1 : m1.length = 4 := hF1.length_eq
            have hm2 : m2.length = 4 := hF2.length_eq
            have hLlen : (c :: rest).length
                = m1.length + (w1.length + (1 + (w2.length + (m2.length + r1.length)))) := by
              rw [hL]
              simp
              omega
            have hw1e : w1.length = 0 := by omega
            have hw2e : w2.length = 0 := by omega
            rw [List.length_eq_zero] at hw1e hw2e
            subst hw1e
            subst hw2e
            have h9 : realTimeChars.length = ((m1 ++ '-' :: m2) : List Char).length := by
              simp [realTimeChars]
              omega
            have hfix2 : realTimeChars ++ sub1 true r1 = (m1 ++ '-' :: m2) ++ r1 := by
              rw [hfix, hL]
              simp
            obtain ⟨hrt, hfixr⟩ := List.append_inj hfix2 h9
            have hcr : c :: rest = realTimeChars ++ r1 := by
              rw [hL, hrt]
              simp
            have hrlen : r1.length ≤ k := by
              have := pat1_length9 hp1
              simp only [List.length_cons] at this
              omega
            rw [hcr, sub2_rt, sub1_rt, ih r1 hrlen true hfixr]
        · have hp1 : pat1 (c :: rest) = none := pat1_none_of_pat2_some hp2
          have hrest : sub1 (isWord c) rest = rest := by
            rw [sub1_cons_none hp1] at hfix
            exact List.tail_eq_of_cons_eq hfix
          obtain ⟨mt, hmt, hnoR, hstate⟩ := pat2_tail_decomp hp2
          have hfixr : sub1 true r = r := by
            have h2 : sub1 (isWord c) (mt ++ r) = mt ++ sub1 true r := by
              rw [sub1_append_noR mt hnoR (isWord c) r, hstate]
            have h3 : mt ++ sub1 true r = mt ++ r := by
              rw [← h2, ← hmt, hrest, hmt]
            exact List.append_cancel_left h3
          have hrlen : r.length ≤ k := by
            have := pat2_length hp2
            simp only [List.length_cons] at this
            omega
          rw [sub2_cons_some hp2, sub1_rt, ih r hrlen true hfixr]

/-- C8: the text normalizer `_normalize_text` of `src/indexing.py` (the two
hyphenation substitution passes, `\breal\s*-\s*time\b` then
`\breal\s+time\b`, both replaced by `real-time`, case-insensitively) is
idempotent: for every text `x`, `normalize (normalize x) = normalize x`. -/
theorem C8_normalize_idempotent (s : String) :
    _normalize_text (_normalize_text s) = _normalize_text s := by
  have h1 : sub1 false (sub1 false s.data) = sub1 false s.data :=
    sub1_idem s.data.length s.data (le_refl _) false
  have h2 : sub1 false (sub2 false (sub1 false s.data)) = sub2 false (sub1 false s.data) :=
    sub1_fix_sub2 (sub1 false s.data).length (sub1 false s.data) (le_refl _) false h1
  have key : sub2 false (sub1 false (sub2 false (sub1 false s.data)))
      = sub2 false (sub1 false s.data) := by
    rw [h2]
    exact sub2_idem (sub1 false s.data).length (sub1 false s.data) (le_refl _) false
  show (⟨sub2 false (sub1 false (sub2 false (sub1 false s.data)))⟩ : String)
      = ⟨sub2 false (sub1 false s.data)⟩
  rw [key]

theorem C1_witness :
    (chunkSpans "no markers".data = [(0, 10)])
    ∧ ((chunkSpans "1 a\n2 b".data).head?).map Prod.fst = some 0
    ∧ split_into_chunks "1 a\n2 b" =
        ((chunkSpans "1 a\n2 b".data).zip ((finditer "1 a\n2 b".data).map Prod.snd)).filterMap
          (fun se =>
            let t := pyStrip (("1 a\n2 b".data.drop se.1.1).take (se.1.2 - se.1.1))
            if t.isEmpty then none else some ⟨⟨t⟩, some se.2⟩) :=
  ⟨(C1_amended "no markers").2.2.2.1 (by decide),
   (C1_amended "1 a\n2 b").2.2.2.2.1 (0, "1") [(3, "2")] (by decide),
   (C1_amended "1 a\n2 b").2.2.2.2.2 (by decide)⟩

end ExamRC
